import Mathlib

/-!
# Organization tree assembly (`main.go`)

A shallow embedding of the tree assembler of the organization service:
`orgHirarki`, `GenerateJSONStructure` and the row loop of `handleRequest`.

Modelling conventions.

* A Go `map[string]*Organization` is an association list with pairwise
  distinct keys (`IsMap`).  The order of the list is the order in which a
  `range` statement enumerates the map; Go leaves that order unspecified, so
  every statement that is meant for "the map" quantifies over the list.
  The pointers stored in the map are non-nil (the row loop stores `&org`).
* `orgHirarki` is recursive without a measure, so the embedding carries a
  fuel argument that bounds the recursion depth.  `Fault.fuelExhausted`
  therefore means "deeper than the fuel"; a call that exhausts every fuel
  is a call that never returns.
* `*orgMap[orgID]` with an absent key dereferences a nil pointer: the
  run-time panic is `Fault.nilDereference`.
* `encoding/json` is outside the repository.  Its output for the struct
  tags of `Organization` is modelled in two steps: the JSON value
  (`Organization.toJson`) and its compact rendering (`Json.render`), which
  takes the string-literal encoder as a parameter.
-/

namespace OrgTree

/-! ## Data model -/

/-- Go's `sql.NullString`. -/
structure NullString where
  String : String
  Valid : Bool
deriving DecidableEq, Repr

/-- The struct `Organization` of `main.go`. -/
structure Organization where
  OrgID : String
  OrgName : String
  OrgParentID : NullString
  OrgChilds : List Organization

mutual
/-- Equality of `Organization` values is decidable. -/
def Organization.decEq : (a b : Organization) → Decidable (a = b)
  | ⟨i₁, n₁, p₁, c₁⟩, ⟨i₂, n₂, p₂, c₂⟩ =>
    if hi : i₁ = i₂ then
      if hn : n₁ = n₂ then
        if hp : p₁ = p₂ then
          match decEqList c₁ c₂ with
          | isTrue hc => isTrue (by rw [hi, hn, hp, hc])
          | isFalse hc => isFalse (fun h => hc (by injection h))
        else isFalse (fun h => hp (by injection h))
      else isFalse (fun h => hn (by injection h))
    else isFalse (fun h => hi (by injection h))
/-- Equality of lists of `Organization` values is decidable. -/
def decEqList : (a b : List Organization) → Decidable (a = b)
  | [], [] => isTrue rfl
  | [], _ :: _ => isFalse (fun h => by cases h)
  | _ :: _, [] => isFalse (fun h => by cases h)
  | a :: as, b :: bs =>
    match Organization.decEq a b with
    | isTrue hab =>
      match decEqList as bs with
      | isTrue h => isTrue (by rw [hab, h])
      | isFalse h => isFalse (fun h' => h (by injection h'))
    | isFalse hab => isFalse (fun h' => hab (by injection h'))
end

instance : DecidableEq Organization := Organization.decEq

/-- A `map[string]*Organization`, listed in the order a `range` statement
enumerates it. -/
abbrev OrgMap := List (String × Organization)

/-- The keys of a Go map are pairwise distinct. -/
def IsMap (m : OrgMap) : Prop := (m.map Prod.fst).Nodup

/-- The ways a call can fail to return a value. -/
inductive Fault where
  | nilDereference
  | fuelExhausted
deriving DecidableEq, Repr

/-! ## `orgHirarki` -/

/-- The loop condition `o.OrgParentID.Valid && o.OrgParentID.String == orgID`. -/
def isChildOf (orgID : String) (o : Organization) : Bool :=
  o.OrgParentID.Valid && o.OrgParentID.String == orgID

/-- The loop `for _, o := range orgMap { if ... { childOrgs = append(childOrgs,
orgHirarki(orgMap, o.OrgID)) } }`: `call` is the recursive call, the second
list the entries still to be enumerated, the third the value of `childOrgs`.
A recursive call that does not return ends the loop. -/
def rangeLoop (call : String → Except Fault Organization) (orgID : String) :
    OrgMap → List Organization → Except Fault (List Organization)
  | [], childOrgs => .ok childOrgs
  | (_, o) :: rest, childOrgs =>
    if isChildOf orgID o then
      match call o.OrgID with
      | .ok child => rangeLoop call orgID rest (childOrgs ++ [child])
      | .error e => .error e
    else rangeLoop call orgID rest childOrgs

/-- The function `orgHirarki` of `main.go`, with a bound on the recursion depth. -/
def orgHirarki : Nat → OrgMap → String → Except Fault Organization
  | 0, _, _ => .error .fuelExhausted
  | fuel + 1, orgMap, orgID =>
    match orgMap.lookup orgID with
    | none => .error .nilDereference
    | some org =>
      match rangeLoop (orgHirarki fuel orgMap) orgID orgMap [] with
      | .error e => .error e
      | .ok childOrgs =>
        if childOrgs.length > 0 then .ok { org with OrgChilds := childOrgs }
        else .ok org

/-! ## JSON encoding -/

/-- The JSON values that the encoding of an `Organization` can produce. -/
inductive Json where
  | str (s : String)
  | arr (xs : List Json)
  | obj (kvs : List (String × Json))

mutual
/-- The JSON value of an `Organization` under its struct tags: `org_id`,
`org_name`, no entry for `OrgParentID` (tag `-`), and `org_childs` only when
the slice has an element (`omitempty`). -/
def Organization.toJson : Organization → Json
  | ⟨orgID, orgName, _, orgChilds⟩ =>
    .obj ([("org_id", .str orgID), ("org_name", .str orgName)] ++
      (match orgChilds with
       | [] => []
       | c :: cs => [("org_childs", .arr (toJsonList (c :: cs)))]))
/-- The JSON values of a slice of `Organization`. -/
def toJsonList : List Organization → List Json
  | [] => []
  | c :: cs => c.toJson :: toJsonList cs
end

mutual
/-- Compact rendering of a JSON value; `quote` encodes a string literal. -/
def Json.render (quote : String → String) : Json → String
  | .str s => quote s
  | .arr xs => "[" ++ renderElems quote xs ++ "]"
  | .obj kvs => "\x7b" ++ renderFields quote kvs ++ "\x7d"
/-- The elements of an array, separated by commas. -/
def renderElems (quote : String → String) : List Json → String
  | [] => ""
  | [x] => x.render quote
  | x :: y :: xs => x.render quote ++ "," ++ renderElems quote (y :: xs)
/-- The members of an object, separated by commas. -/
def renderFields (quote : String → String) : List (String × Json) → String
  | [] => ""
  | [(k, v)] => quote k ++ ":" ++ v.render quote
  | (k, v) :: kv :: kvs =>
    quote k ++ ":" ++ v.render quote ++ "," ++ renderFields quote (kv :: kvs)
end

/-- The string-literal encoder of `encoding/json` on strings that need no
escape (letters, digits, `-`, `_`, blanks): the string between double quotes. -/
def quotePlain (s : String) : String := "\"" ++ s ++ "\""

/-- The function `GenerateJSONStructure` of `main.go`.  `json.Marshal` returns no
error for a value made of strings and slices, so the `log.Fatal` branch is
not reachable. -/
def GenerateJSONStructure (quote : String → String) (fuel : Nat) (orgMap : OrgMap)
    (organizationID : String) : Except Fault String :=
  match orgHirarki fuel orgMap organizationID with
  | .ok rootOrg => .ok (rootOrg.toJson.render quote)
  | .error e => .error e

/-! ## The row loop of `handleRequest` -/

/-- A decoded row of the query: `org_id`, `org_name`, `org_parent_id`. -/
structure Row where
  org_id : String
  org_name : String
  org_parent_id : NullString
deriving DecidableEq, Repr

/-- The statements `var org Organization; rows.Scan(&org.OrgID, &org.OrgName,
&org.OrgParentID)`: the three columns are stored, `OrgChilds` stays nil. -/
def scanRow (r : Row) : Organization :=
  { OrgID := r.org_id, OrgName := r.org_name, OrgParentID := r.org_parent_id, OrgChilds := [] }

/-- The map assignment `orgMap[k] = v`: the value of an existing key is
replaced, a new key is added. -/
def mapAssign (k : String) (v : Organization) : OrgMap → OrgMap
  | [] => [(k, v)]
  | (k', v') :: rest => if k' = k then (k, v) :: rest else (k', v') :: mapAssign k v rest

/-- The loop `for rows.Next() { ...; orgMap[org.OrgID] = &org }` of
`handleRequest` over rows that decode without error, from the empty map. -/
def rowLoop (rows : List Row) : OrgMap :=
  rows.foldl (fun orgMap r => mapAssign (scanRow r).OrgID (scanRow r) orgMap) []

/-! ## Vocabulary of the properties -/

mutual
/-- The `org_id`s of all nodes of a tree: the root and, recursively, every
entry of `OrgChilds`. -/
def Organization.ids : Organization → List String
  | ⟨orgID, _, _, orgChilds⟩ => orgID :: idsList orgChilds
/-- The `org_id`s of all nodes of a list of trees. -/
def idsList : List Organization → List String
  | [] => []
  | c :: cs => c.ids ++ idsList cs
end

mutual
/-- The nodes of a tree: the root and, recursively, the nodes of every entry
of `OrgChilds`. -/
def Organization.nodes : Organization → List Organization
  | ⟨orgID, orgName, orgParentID, orgChilds⟩ =>
    ⟨orgID, orgName, orgParentID, orgChilds⟩ :: nodesList orgChilds
/-- The nodes of a list of trees. -/
def nodesList : List Organization → List Organization
  | [] => []
  | c :: cs => c.nodes ++ nodesList cs
end

/-- The record `y` is a child of `x`: some record of the map has `org_id` `y`
and a valid `OrgParentID` equal to `x`. -/
def Child (m : OrgMap) (x y : String) : Prop :=
  ∃ kv ∈ m, isChildOf x kv.2 = true ∧ kv.2.OrgID = y

/-- Reachability along parent->child edges. -/
def Reach (m : OrgMap) : String → String → Prop := Relation.ReflTransGen (Child m)

/-- Every record is stored under its own `org_id`. -/
def WellKeyed (m : OrgMap) : Prop := ∀ kv ∈ m, kv.1 = kv.2.OrgID

/-- No record reachable from `root` lies on a cycle of parent links. -/
def Acyclic (m : OrgMap) (root : String) : Prop :=
  ∀ c, Reach m root c → ¬ Relation.TransGen (Child m) c c

/-- The entries of the map whose record is a child of `orgID`, in the order of
enumeration. -/
def childRecords (m : OrgMap) (orgID : String) : OrgMap :=
  m.filter (fun kv => isChildOf orgID kv.2)

/-- A record without child records carries no `OrgChilds` of its own. -/
def LeafClean (m : OrgMap) : Prop :=
  ∀ kv ∈ m, childRecords m kv.2.OrgID = [] → kv.2.OrgChilds = []

/-- Two trees are equal up to the order of the children of each node: the
least relation that contains equality and relates two nodes with the same
`org_id`, name and parent whose children correspond one to one, after a
reordering, to related children. -/
inductive SameUpToOrder : Organization → Organization → Prop
  | refl (t : Organization) : SameUpToOrder t t
  | node (a b : Organization) (cs : List Organization) :
      a.OrgID = b.OrgID → a.OrgName = b.OrgName → a.OrgParentID = b.OrgParentID →
      a.OrgChilds.Perm cs → List.Forall₂ SameUpToOrder cs b.OrgChilds →
      SameUpToOrder a b

/-- Two outcomes agree up to the order of children: both return, with trees
equal up to that order, or neither returns. -/
def OutcomeEquiv : Except Fault Organization → Except Fault Organization → Prop
  | .ok a, .ok b => SameUpToOrder a b
  | .error _, .error _ => True
  | _, _ => False

/-- Two outcomes agree: both return, with trees equal up to the order of
children, or both end in the same fault. -/
def OutcomeAgree : Except Fault Organization → Except Fault Organization → Prop
  | .ok a, .ok b => SameUpToOrder a b
  | .error e, .error e' => e = e'
  | _, _ => False

mutual
/-- Two JSON values are equal up to the order of the elements of their
arrays: objects have the same keys in the same order with related values,
arrays have related elements after a reordering. -/
inductive JsonUpToOrder : Json → Json → Prop
  | refl (j : Json) : JsonUpToOrder j j
  | arr (xs zs ys : List Json) :
      xs.Perm zs → JsonElemsUpToOrder zs ys → JsonUpToOrder (.arr xs) (.arr ys)
  | obj (kvs kvs' : List (String × Json)) :
      JsonFieldsUpToOrder kvs kvs' → JsonUpToOrder (.obj kvs) (.obj kvs')
/-- Two lists of JSON values are related element by element. -/
inductive JsonElemsUpToOrder : List Json → List Json → Prop
  | nil : JsonElemsUpToOrder [] []
  | cons (x y : Json) (xs ys : List Json) :
      JsonUpToOrder x y → JsonElemsUpToOrder xs ys → JsonElemsUpToOrder (x :: xs) (y :: ys)
/-- Two lists of object members have the same keys, in the same order, with
related values. -/
inductive JsonFieldsUpToOrder : List (String × Json) → List (String × Json) → Prop
  | nil : JsonFieldsUpToOrder [] []
  | cons (k : String) (x y : Json) (kvs kvs' : List (String × Json)) :
      JsonUpToOrder x y → JsonFieldsUpToOrder kvs kvs' →
      JsonFieldsUpToOrder ((k, x) :: kvs) ((k, y) :: kvs')
end

/-- A cycle of parent links can be reached from `root`. -/
def HasCycle (m : OrgMap) (root : String) : Prop :=
  ∃ c, Reach m root c ∧ Relation.TransGen (Child m) c c

/-- The call `orgHirarki(orgMap, orgID)` never returns: it exceeds every
recursion bound. -/
def Diverges (m : OrgMap) (orgID : String) : Prop :=
  ∀ fuel, orgHirarki fuel m orgID = .error .fuelExhausted

instance (m : OrgMap) (x y : String) : Decidable (Child m x y) := by
  unfold Child
  infer_instance

instance (m : OrgMap) : Decidable (WellKeyed m) := by
  unfold WellKeyed
  infer_instance

instance (m : OrgMap) : Decidable (LeafClean m) := by
  unfold LeafClean
  infer_instance

instance : DecidableEq (Except Fault Organization)
  | .ok a, .ok b => if h : a = b then isTrue (by rw [h]) else isFalse (fun h' => h (by injection h'))
  | .error a, .error b =>
    if h : a = b then isTrue (by rw [h]) else isFalse (fun h' => h (by injection h'))
  | .ok _, .error _ => isFalse (fun h => by cases h)
  | .error _, .ok _ => isFalse (fun h => by cases h)

instance : DecidableEq (Except Fault String)
  | .ok a, .ok b => if h : a = b then isTrue (by rw [h]) else isFalse (fun h' => h (by injection h'))
  | .error a, .error b =>
    if h : a = b then isTrue (by rw [h]) else isFalse (fun h' => h (by injection h'))
  | .ok _, .error _ => isFalse (fun h => by cases h)
  | .error _, .ok _ => isFalse (fun h => by cases h)

/-! ## Concrete record sets -/

/-- An absent `org_parent_id` (SQL NULL). -/
def noParent : NullString := ⟨"", false⟩

/-- A present `org_parent_id`. -/
def parent (s : String) : NullString := ⟨s, true⟩

/-- The record set of the end-to-end example, enumerated A, B, C, D. -/
def exampleMap : OrgMap :=
  [("A", ⟨"A", "Acme", noParent, []⟩), ("B", ⟨"B", "Acme-West", parent "A", []⟩),
   ("C", ⟨"C", "Acme-East", parent "A", []⟩), ("D", ⟨"D", "Acme-West-1", parent "B", []⟩)]

/-- The same record set, enumerated A, C, B, D. -/
def exampleMapCB : OrgMap :=
  [("A", ⟨"A", "Acme", noParent, []⟩), ("C", ⟨"C", "Acme-East", parent "A", []⟩),
   ("B", ⟨"B", "Acme-West", parent "A", []⟩), ("D", ⟨"D", "Acme-West-1", parent "B", []⟩)]

/-- A depth for the records of the example: parents lie above their children. -/
def exampleRank (s : String) : Nat :=
  if s = "A" then 0 else if s = "D" then 2 else 1

/-- Two records that name each other as parent. -/
def cycleMap : OrgMap :=
  [("A", ⟨"A", "Alpha", parent "B", []⟩), ("B", ⟨"B", "Beta", parent "A", []⟩)]

/-- A record that is its own parent. -/
def selfMap : OrgMap := [("S", ⟨"S", "Self", parent "S", []⟩)]

/-- A single record without parent whose `OrgChilds` already holds a node. -/
def staleMap : OrgMap :=
  [("A", ⟨"A", "Acme", noParent, [⟨"Z", "Zed", noParent, []⟩]⟩)]

/-- The node `D` of the end-to-end example. -/
def nodeD : Organization := ⟨"D", "Acme-West-1", parent "B", []⟩

/-- The node `B` of the end-to-end example, with its child `D`. -/
def nodeB : Organization := ⟨"B", "Acme-West", parent "A", [nodeD]⟩

/-- The node `C` of the end-to-end example. -/
def nodeC : Organization := ⟨"C", "Acme-East", parent "A", []⟩

/-- The tree of the end-to-end example, with `B` before `C` or `C` before `B`. -/
def exampleTree (bFirst : Bool) : Organization :=
  ⟨"A", "Acme", noParent, if bFirst then [nodeB, nodeC] else [nodeC, nodeB]⟩

/-- The enumeration lists the key `B` before the key `C`. -/
def listsBBeforeC (m : OrgMap) : Bool :=
  decide ((m.map Prod.fst).indexOf "B" < (m.map Prod.fst).indexOf "C")

/-- The lists obtained by putting `a` at one position of a list. -/
def insertEverywhere {α : Type} (a : α) : List α → List (List α)
  | [] => [[a]]
  | b :: l => (a :: b :: l) :: (insertEverywhere a l).map (fun l' => b :: l')

/-- All orders in which the entries of a list can be enumerated. -/
def enumerations {α : Type} : List α → List (List α)
  | [] => [[]]
  | a :: l => (enumerations l).flatMap (insertEverywhere a)

/-- The root `A`, whose `OrgChilds` already holds a node `R`, and the record
`R` whose parent `Z` is not in the map. -/
def orphanMap : OrgMap :=
  [("A", ⟨"A", "Acme", noParent, [⟨"R", "Rogue", parent "Z", []⟩]⟩),
   ("R", ⟨"R", "Rogue", parent "Z", []⟩)]

/-- The end-to-end record set with an orphan `R` (parent `Z` absent) and a
record `S` below it. -/
def strayMap : OrgMap :=
  exampleMap ++ [("R", ⟨"R", "Rogue", parent "Z", []⟩), ("S", ⟨"S", "Stray", parent "R", []⟩)]

/-- A depth for the records of `strayMap`. -/
def strayRank (s : String) : Nat :=
  if s = "A" ∨ s = "Z" then 0 else if s = "D" ∨ s = "S" then 2 else 1

/-- The record `y` is a child of `x` and is not the root. -/
def ChildAvoiding (m : OrgMap) (root : String) (x y : String) : Prop :=
  Child m x y ∧ y ≠ root

/-- Records are stored under the key `A` with `org_id` `X`: not under their own
`org_id`. -/
def misKeyedMap : OrgMap :=
  [("A", ⟨"X", "Acme", noParent, []⟩), ("B", ⟨"B", "Beta", parent "A", []⟩)]

/-! ## Rows with a repeated `org_id` -/

/-- Rows in which the `org_id` `A` is repeated: the first row names a parent
and another name. -/
def repeatedRows : List Row :=
  [⟨"A", "Old", parent "B"⟩, ⟨"B", "Kid", parent "A"⟩, ⟨"A", "New", noParent⟩]

/-- The last row of the sequence that carries the `org_id` `k`. -/
def lastRow (k : String) : List Row → Option Row
  | [] => none
  | r :: rs =>
    match lastRow k rs with
    | some r' => some r'
    | none => if r.org_id = k then some r else none

/-- The sequence without every row whose `org_id` is carried by a later row. -/
def dropEarlier : List Row → List Row
  | [] => []
  | r :: rs =>
    if rs.any (fun r' => r'.org_id == r.org_id) then dropEarlier rs else r :: dropEarlier rs

/-! ## `orgHirarki` with the map as explicit state

The records behind the pointers of the map are threaded through the call
and returned with its result, so that a write to a record of the map would
show in the returned state.  `org := *orgMap[orgID]` copies the record; the
assignment `org.OrgChilds = childOrgs` and `append` act on the copy and on
the local slice. -/

/-- The loop of `orgHirarki` over the positions of the map: the record of an
entry is read when the loop reaches it, from the state the earlier
recursive calls left. -/
def rangeLoopSt (call : OrgMap → String → Except Fault (Organization × OrgMap))
    (orgID : String) : List Nat → OrgMap → List Organization →
    Except Fault (List Organization × OrgMap)
  | [], heap, childOrgs => .ok (childOrgs, heap)
  | i :: rest, heap, childOrgs =>
    match heap[i]? with
    | none => rangeLoopSt call orgID rest heap childOrgs
    | some (_, o) =>
      if isChildOf orgID o then
        match call heap o.OrgID with
        | .ok (child, heap') => rangeLoopSt call orgID rest heap' (childOrgs ++ [child])
        | .error e => .error e
      else rangeLoopSt call orgID rest heap childOrgs

/-- The function `orgHirarki` with the map's records as state: the returned pair
is the node and the records after the call. -/
def orgHirarkiSt : Nat → OrgMap → String → Except Fault (Organization × OrgMap)
  | 0, _, _ => .error .fuelExhausted
  | fuel + 1, heap, orgID =>
    match heap.lookup orgID with
    | none => .error .nilDereference
    | some org =>
      match rangeLoopSt (orgHirarkiSt fuel) orgID (List.range heap.length) heap [] with
      | .error e => .error e
      | .ok (childOrgs, heap') =>
        if childOrgs.length > 0 then .ok ({ org with OrgChilds := childOrgs }, heap')
        else .ok (org, heap')

/-- The function `GenerateJSONStructure` with the map's records as state. -/
def GenerateJSONStructureSt (quote : String → String) (fuel : Nat) (orgMap : OrgMap)
    (organizationID : String) : Except Fault (String × OrgMap) :=
  match orgHirarkiSt fuel orgMap organizationID with
  | .ok (rootOrg, heap) => .ok (rootOrg.toJson.render quote, heap)
  | .error e => .error e

/-- A result without state, paired with the state `heap`. -/
def withState {α : Type} (heap : OrgMap) : Except Fault α → Except Fault (α × OrgMap)
  | .ok a => .ok (a, heap)
  | .error e => .error e

/-! ## The loop -/

theorem rangeLoop_ok_iff (call : String → Except Fault Organization) (orgID : String) :
    ∀ (l : OrgMap) (acc r : List Organization),
      rangeLoop call orgID l acc = .ok r ↔
        ∃ cs, r = acc ++ cs ∧
          List.Forall₂ (fun kv c => call kv.2.OrgID = .ok c)
            (l.filter (fun kv => isChildOf orgID kv.2)) cs := by
  intro l
  induction l with
  | nil =>
    intro acc r
    simp only [rangeLoop, List.filter_nil, List.forall₂_nil_left_iff]
    constructor
    · intro h
      injection h with h
      exact ⟨[], by simp [h], rfl⟩
    · rintro ⟨cs, h1, h2⟩
      subst h2
      simp [h1]
  | cons kv rest ih =>
    intro acc r
    obtain ⟨k, o⟩ := kv
    by_cases hc : isChildOf orgID o = true
    · simp only [rangeLoop, hc, if_true, List.filter_cons_of_pos]
      cases hcall : call o.OrgID with
      | error e =>
        simp only [List.forall₂_cons_left_iff]
        constructor
        · intro h; cases h
        · rintro ⟨cs, -, c, cs', hco, -, -⟩
          rw [hcall] at hco
          cases hco
      | ok child =>
        simp only [ih, List.forall₂_cons_left_iff]
        constructor
        · rintro ⟨cs, h1, h2⟩
          exact ⟨child :: cs, by simp [h1], child, cs, hcall, h2, rfl⟩
        · rintro ⟨cs, h1, c, cs', hco, h2, h3⟩
          rw [hcall] at hco
          injection hco with hco
          subst hco
          subst h3
          exact ⟨cs', by simp [h1], h2⟩
    · have hc' : isChildOf orgID o = false := by simpa using hc
      simp only [rangeLoop, hc', Bool.false_eq_true, if_false]
      rw [ih]
      simp [hc']

theorem rangeLoop_error (call : String → Except Fault Organization) (orgID : String) :
    ∀ (l : OrgMap) (acc : List Organization) (e : Fault),
      rangeLoop call orgID l acc = .error e →
        ∃ kv ∈ l, isChildOf orgID kv.2 = true ∧ call kv.2.OrgID = .error e := by
  intro l
  induction l with
  | nil => intro acc e h; simp [rangeLoop] at h
  | cons kv rest ih =>
    intro acc e h
    obtain ⟨k, o⟩ := kv
    by_cases hc : isChildOf orgID o = true
    · simp only [rangeLoop, hc, if_true] at h
      cases hcall : call o.OrgID with
      | error e' =>
        rw [hcall] at h
        injection h with h
        subst h
        exact ⟨(k, o), List.mem_cons_self _ _, hc, hcall⟩
      | ok child =>
        rw [hcall] at h
        obtain ⟨kv, hm, h1, h2⟩ := ih _ _ h
        exact ⟨kv, List.mem_cons_of_mem _ hm, h1, h2⟩
    · have hc' : isChildOf orgID o = false := by simpa using hc
      simp only [rangeLoop, hc', Bool.false_eq_true, if_false] at h
      obtain ⟨kv, hm, h1, h2⟩ := ih _ _ h
      exact ⟨kv, List.mem_cons_of_mem _ hm, h1, h2⟩

/-- When every recursive call on a child record returns, the loop returns. -/
theorem rangeLoop_returns (call : String → Except Fault Organization) (orgID : String)
    (l : OrgMap) (acc : List Organization)
    (h : ∀ kv ∈ l, isChildOf orgID kv.2 = true → ∃ c, call kv.2.OrgID = .ok c) :
    ∃ r, rangeLoop call orgID l acc = .ok r := by
  cases hr : rangeLoop call orgID l acc with
  | ok r => exact ⟨r, rfl⟩
  | error e =>
    obtain ⟨kv, hm, h1, h2⟩ := rangeLoop_error call orgID l acc e hr
    obtain ⟨c, hc⟩ := h kv hm h1
    rw [hc] at h2
    cases h2

/-- One step of `orgHirarki`, as an equation. -/
theorem orgHirarki_succ (fuel : Nat) (m : OrgMap) (orgID : String) :
    orgHirarki (fuel + 1) m orgID =
      match m.lookup orgID with
      | none => .error .nilDereference
      | some org =>
        match rangeLoop (orgHirarki fuel m) orgID m [] with
        | .error e => .error e
        | .ok childOrgs =>
          if childOrgs.length > 0 then .ok { org with OrgChilds := childOrgs }
          else .ok org := rfl

/-- The shape of a returned node: the record stored under the key, with the
results of the loop as children when there is one. -/
theorem orgHirarki_ok_iff (fuel : Nat) (m : OrgMap) (orgID : String) (t : Organization) :
    orgHirarki (fuel + 1) m orgID = .ok t ↔
      ∃ org cs, m.lookup orgID = some org ∧
        List.Forall₂ (fun kv c => orgHirarki fuel m kv.2.OrgID = .ok c)
          (childRecords m orgID) cs ∧
        t = if cs.length > 0 then { org with OrgChilds := cs } else org := by
  rw [orgHirarki_succ]
  cases hl : m.lookup orgID with
  | none => simp
  | some org =>
    cases hr : rangeLoop (orgHirarki fuel m) orgID m [] with
    | error e =>
      simp only [Option.some.injEq]
      constructor
      · intro h; cases h
      · rintro ⟨org', cs, rfl, hf, -⟩
        have := (rangeLoop_ok_iff (orgHirarki fuel m) orgID m [] cs).2 ⟨cs, by simp, hf⟩
        rw [hr] at this
        cases this
    | ok childOrgs =>
      obtain ⟨cs, h1, h2⟩ := (rangeLoop_ok_iff _ _ _ _ _).1 hr
      simp only [List.nil_append] at h1
      subst h1
      simp only [Option.some.injEq]
      constructor
      · intro h
        refine ⟨org, childOrgs, rfl, h2, ?_⟩
        split_ifs at h ⊢ with hlen
        · injection h with h; exact h.symm
        · injection h with h; exact h.symm
      · rintro ⟨org', cs', rfl, hf, ht⟩
        have h3 := (rangeLoop_ok_iff (orgHirarki fuel m) orgID m [] cs').2 ⟨cs', by simp, hf⟩
        rw [hr] at h3
        injection h3 with h3
        subst h3
        subst ht
        split_ifs <;> rfl

/-! ## Fuel -/

theorem forall₂_mem_left {α β : Type} {R : α → β → Prop} {l : List α} {cs : List β}
    (h : List.Forall₂ R l cs) {a : α} (ha : a ∈ l) : ∃ c ∈ cs, R a c := by
  induction h with
  | nil => simp at ha
  | cons hr _ ih =>
    rcases List.mem_cons.1 ha with rfl | ha
    · exact ⟨_, List.mem_cons_self _ _, hr⟩
    · obtain ⟨c, hc, hrc⟩ := ih ha
      exact ⟨c, List.mem_cons_of_mem _ hc, hrc⟩

theorem forall₂_mem_right {α β : Type} {R : α → β → Prop} {l : List α} {cs : List β}
    (h : List.Forall₂ R l cs) {c : β} (hc : c ∈ cs) : ∃ a ∈ l, R a c := by
  induction h with
  | nil => simp at hc
  | cons hr _ ih =>
    rcases List.mem_cons.1 hc with rfl | hc
    · exact ⟨_, List.mem_cons_self _ _, hr⟩
    · obtain ⟨a, ha, hrc⟩ := ih hc
      exact ⟨a, List.mem_cons_of_mem _ ha, hrc⟩

theorem orgHirarki_mono_succ (m : OrgMap) :
    ∀ (fuel : Nat) (orgID : String) (t : Organization),
      orgHirarki fuel m orgID = .ok t → orgHirarki (fuel + 1) m orgID = .ok t := by
  intro fuel
  induction fuel with
  | zero => intro orgID t h; cases h
  | succ n ih =>
    intro orgID t h
    rw [orgHirarki_ok_iff] at h ⊢
    obtain ⟨org, cs, h1, h2, h3⟩ := h
    exact ⟨org, cs, h1, h2.imp (fun _ _ hh => ih _ _ hh), h3⟩

theorem orgHirarki_mono (m : OrgMap) (orgID : String) (t : Organization) (fuel fuel' : Nat)
    (hle : fuel ≤ fuel') (h : orgHirarki fuel m orgID = .ok t) :
    orgHirarki fuel' m orgID = .ok t := by
  induction hle with
  | refl => exact h
  | step _ ih => exact orgHirarki_mono_succ m _ _ _ ih

/-! ## Keys and records -/

theorem mem_of_lookup {m : OrgMap} {k : String} {org : Organization}
    (h : m.lookup k = some org) : (k, org) ∈ m := by
  induction m with
  | nil => simp at h
  | cons kv rest ih =>
    obtain ⟨k', o⟩ := kv
    by_cases hk : k = k'
    · subst hk
      simp at h
      subst h
      exact List.mem_cons_self _ _
    · have : (k == k') = false := by simpa using hk
      rw [List.lookup_cons, this] at h
      exact List.mem_cons_of_mem _ (ih h)

theorem lookup_isSome_of_key {m : OrgMap} {k : String} (h : k ∈ m.map Prod.fst) :
    ∃ org, m.lookup k = some org := by
  induction m with
  | nil => simp at h
  | cons kv rest ih =>
    obtain ⟨k', o⟩ := kv
    by_cases hk : k = k'
    · subst hk
      exact ⟨o, by simp⟩
    · have hb : (k == k') = false := by simpa using hk
      rw [List.lookup_cons, hb]
      apply ih
      simp only [List.map_cons, List.mem_cons] at h
      rcases h with h | h
      · exact absurd h hk
      · exact h

theorem lookup_of_mem {m : OrgMap} (hm : IsMap m) {k : String} {org : Organization}
    (h : (k, org) ∈ m) : m.lookup k = some org := by
  induction m with
  | nil => simp at h
  | cons kv rest ih =>
    obtain ⟨k', o⟩ := kv
    simp only [IsMap, List.map_cons, List.nodup_cons] at hm
    rcases List.mem_cons.1 h with h0 | h0
    · injection h0 with h1 h2
      subst h1; subst h2
      simp
    · have hk : k ≠ k' := by
        intro hkk
        exact hm.1 (hkk ▸ List.mem_map.2 ⟨(k, org), h0, rfl⟩)
      have hb : (k == k') = false := by simpa using hk
      rw [List.lookup_cons, hb]
      exact ih hm.2 h0

theorem child_key {m : OrgMap} (hwk : WellKeyed m) {x y : String} (h : Child m x y) :
    y ∈ m.map Prod.fst := by
  obtain ⟨kv, hm, -, rfl⟩ := h
  rw [← hwk kv hm]
  exact List.mem_map_of_mem Prod.fst hm

theorem mem_childRecords {m : OrgMap} {orgID : String} {kv : String × Organization} :
    kv ∈ childRecords m orgID ↔ kv ∈ m ∧ isChildOf orgID kv.2 = true := by
  simp [childRecords, List.mem_filter]

/-! ## Termination on acyclic maps -/

theorem orgHirarki_returns_aux (m : OrgMap) (hwk : WellKeyed m) :
    ∀ (fuel : Nat) (anc : List String) (orgID : String),
      anc.Nodup → (∀ a ∈ anc, a ∈ m.map Prod.fst) →
      (∀ a ∈ anc, Relation.TransGen (Child m) a orgID) →
      orgID ∈ m.map Prod.fst → Acyclic m orgID →
      m.length < fuel + anc.length →
      ∃ t, orgHirarki fuel m orgID = .ok t := by
  intro fuel
  induction fuel with
  | zero =>
    intro anc orgID hnd hkeys _ _ _ hlen
    have h1 : anc.length ≤ (m.map Prod.fst).length :=
      (hnd.subperm (fun a ha => hkeys a ha)).length_le
    simp at h1 hlen
    omega
  | succ n ih =>
    intro anc orgID hnd hkeys hanc hkey hac hlen
    obtain ⟨org, hl⟩ := lookup_isSome_of_key hkey
    have hnot : orgID ∉ anc := fun hin => hac orgID Relation.ReflTransGen.refl (hanc orgID hin)
    have hloop : ∃ r, rangeLoop (orgHirarki n m) orgID m [] = .ok r := by
      apply rangeLoop_returns
      intro kv hkv hc
      have hch : Child m orgID kv.2.OrgID := ⟨kv, hkv, hc, rfl⟩
      apply ih (orgID :: anc) kv.2.OrgID
      · exact List.nodup_cons.2 ⟨hnot, hnd⟩
      · intro a ha
        rcases List.mem_cons.1 ha with rfl | ha
        · exact hkey
        · exact hkeys a ha
      · intro a ha
        rcases List.mem_cons.1 ha with rfl | ha
        · exact Relation.TransGen.single hch
        · exact Relation.TransGen.tail (hanc a ha) hch
      · exact child_key hwk hch
      · intro c hr
        exact hac c (Relation.ReflTransGen.head hch hr)
      · simp only [List.length_cons]
        omega
    obtain ⟨r, hr⟩ := hloop
    rw [orgHirarki_succ, hl]
    simp only [hr]
    split_ifs
    · exact ⟨_, rfl⟩
    · exact ⟨_, rfl⟩

/-- On a map whose records are stored under their own `org_id` and whose
parent links below `orgID` are acyclic, `orgHirarki` returns, at every
recursion bound above the number of records. -/
theorem orgHirarki_returns (m : OrgMap) (hwk : WellKeyed m) (orgID : String)
    (hkey : orgID ∈ m.map Prod.fst) (hac : Acyclic m orgID) :
    ∃ t, ∀ fuel, m.length < fuel → orgHirarki fuel m orgID = .ok t := by
  obtain ⟨t, ht⟩ := orgHirarki_returns_aux m hwk (m.length + 1) [] orgID List.nodup_nil
    (by simp) (by simp) hkey hac (by simp)
  exact ⟨t, fun fuel hf => orgHirarki_mono m orgID t _ fuel hf ht⟩

/-! ## Non-termination on cycles -/

theorem orgHirarki_ne_nilDereference (m : OrgMap) (hwk : WellKeyed m) :
    ∀ (fuel : Nat) (orgID : String), orgID ∈ m.map Prod.fst →
      orgHirarki fuel m orgID ≠ .error .nilDereference := by
  intro fuel
  induction fuel with
  | zero => intro orgID _ h; cases h
  | succ n ih =>
    intro orgID hkey h
    obtain ⟨org, hl⟩ := lookup_isSome_of_key hkey
    rw [orgHirarki_succ, hl] at h
    simp only at h
    cases hr : rangeLoop (orgHirarki n m) orgID m [] with
    | error e =>
      rw [hr] at h
      simp only at h
      injection h with h
      subst h
      obtain ⟨kv, hm, hc, herr⟩ := rangeLoop_error _ _ _ _ _ hr
      exact ih kv.2.OrgID (child_key hwk ⟨kv, hm, hc, rfl⟩) herr
    | ok r =>
      rw [hr] at h
      simp only at h
      split_ifs at h

theorem hasCycle_child {m : OrgMap} {x : String} (h : HasCycle m x) :
    ∃ y, Child m x y ∧ HasCycle m y := by
  obtain ⟨c, hr, hc⟩ := h
  rcases Relation.ReflTransGen.cases_head hr with rfl | ⟨y, hxy, hyc⟩
  · rcases Relation.TransGen.head'_iff.1 hc with ⟨y, hxy, hyx⟩
    exact ⟨y, hxy, x, hyx, hc⟩
  · exact ⟨y, hxy, c, hyc, hc⟩

theorem orgHirarki_cycle_not_ok (m : OrgMap) :
    ∀ (fuel : Nat) (orgID : String) (t : Organization), HasCycle m orgID →
      orgHirarki fuel m orgID ≠ .ok t := by
  intro fuel
  induction fuel with
  | zero => intro orgID t _ h; cases h
  | succ n ih =>
    intro orgID t hcyc h
    rw [orgHirarki_ok_iff] at h
    obtain ⟨org, cs, -, hf, -⟩ := h
    obtain ⟨y, ⟨kv, hm, hc, rfl⟩, hy⟩ := hasCycle_child hcyc
    have hmem : kv ∈ childRecords m orgID := mem_childRecords.2 ⟨hm, hc⟩
    obtain ⟨c, -, hcok⟩ := forall₂_mem_left hf hmem
    exact ih _ c hy hcok

/-! ## The nodes of the returned tree -/

theorem ids_eq (t : Organization) : t.ids = t.OrgID :: idsList t.OrgChilds := by
  cases t
  simp [Organization.ids]

theorem nodes_eq (t : Organization) : t.nodes = t :: nodesList t.OrgChilds := by
  cases t
  simp [Organization.nodes]

theorem mem_idsList {x : String} : ∀ {cs : List Organization},
    x ∈ idsList cs ↔ ∃ c ∈ cs, x ∈ c.ids := by
  intro cs
  induction cs with
  | nil => simp [idsList]
  | cons c cs ih => simp [idsList, ih]

theorem mem_nodesList {n : Organization} : ∀ {cs : List Organization},
    n ∈ nodesList cs ↔ ∃ c ∈ cs, n ∈ c.nodes := by
  intro cs
  induction cs with
  | nil => simp [nodesList]
  | cons c cs ih => simp [nodesList, ih]

/-- The node returned for `orgID` on a map with clean leaves: the fields of
the record stored under `orgID`, and one child per child record, each the
result of the recursive call. -/
theorem orgHirarki_shape (m : OrgMap) (hwk : WellKeyed m) (hlc : LeafClean m)
    (fuel : Nat) (orgID : String) (t : Organization)
    (h : orgHirarki (fuel + 1) m orgID = .ok t) :
    t.OrgID = orgID ∧
      List.Forall₂ (fun kv c => orgHirarki fuel m kv.2.OrgID = .ok c)
        (childRecords m orgID) t.OrgChilds := by
  rw [orgHirarki_ok_iff] at h
  obtain ⟨org, cs, hl, hf, ht⟩ := h
  have hmem := mem_of_lookup hl
  have hid : orgID = org.OrgID := hwk _ hmem
  by_cases hlen : cs.length > 0
  · rw [if_pos hlen] at ht
    subst ht
    exact ⟨hid.symm, hf⟩
  · rw [if_neg hlen] at ht
    subst ht
    have hcs : cs = [] := by
      cases cs with
      | nil => rfl
      | cons c cs => simp at hlen
    subst hcs
    have hnil : childRecords m orgID = [] := List.forall₂_nil_right_iff.1 hf
    have ho : t.OrgChilds = [] := hlc _ hmem (by rw [← hid]; exact hnil)
    rw [ho, hnil]
    exact ⟨hid.symm, List.Forall₂.nil⟩

theorem mem_ids_iff_reach (m : OrgMap) (hwk : WellKeyed m) (hlc : LeafClean m) :
    ∀ (fuel : Nat) (orgID : String) (t : Organization),
      orgHirarki fuel m orgID = .ok t → ∀ x, x ∈ t.ids ↔ Reach m orgID x := by
  intro fuel
  induction fuel with
  | zero => intro orgID t h; cases h
  | succ n ih =>
    intro orgID t h x
    obtain ⟨hid, hf⟩ := orgHirarki_shape m hwk hlc n orgID t h
    rw [ids_eq, List.mem_cons, mem_idsList, hid]
    constructor
    · rintro (rfl | ⟨c, hc, hx⟩)
      · exact Relation.ReflTransGen.refl
      · obtain ⟨kv, hkv, hok⟩ := forall₂_mem_right hf hc
        have hr := (ih _ _ hok x).1 hx
        have hkv' := mem_childRecords.1 hkv
        exact Relation.ReflTransGen.head ⟨kv, hkv'.1, hkv'.2, rfl⟩ hr
    · intro hr
      rcases Relation.ReflTransGen.cases_head hr with rfl | ⟨y, ⟨kv, hm, hc, rfl⟩, hyx⟩
      · exact Or.inl rfl
      · obtain ⟨c, hc', hok⟩ := forall₂_mem_left hf (mem_childRecords.2 ⟨hm, hc⟩)
        exact Or.inr ⟨c, hc', (ih _ _ hok x).2 hyx⟩

/-- Every node of a returned tree is itself what `orgHirarki` returns for the
node's `org_id`. -/
theorem node_is_result (m : OrgMap) (hwk : WellKeyed m) (hlc : LeafClean m) :
    ∀ (fuel : Nat) (orgID : String) (t : Organization),
      orgHirarki fuel m orgID = .ok t →
        ∀ n ∈ t.nodes, ∃ fuel', orgHirarki (fuel' + 1) m n.OrgID = .ok n := by
  intro fuel
  induction fuel with
  | zero => intro orgID t h; cases h
  | succ k ih =>
    intro orgID t h n hn
    obtain ⟨hid, hf⟩ := orgHirarki_shape m hwk hlc k orgID t h
    rw [nodes_eq, List.mem_cons, mem_nodesList] at hn
    rcases hn with rfl | ⟨c, hc, hn⟩
    · exact ⟨k, by rw [hid]; exact h⟩
    · obtain ⟨kv, -, hok⟩ := forall₂_mem_right hf hc
      exact ih _ _ hok n hn

/-! ## Acyclicity from a depth function -/

theorem child_parent_valid {m : OrgMap} {x y : String} (h : Child m x y) :
    ∃ kv ∈ m, kv.2.OrgParentID.Valid = true ∧ kv.2.OrgParentID.String = x ∧ kv.2.OrgID = y := by
  obtain ⟨kv, hm, hc, hy⟩ := h
  simp only [isChildOf, Bool.and_eq_true, beq_iff_eq] at hc
  exact ⟨kv, hm, hc.1, hc.2, hy⟩

theorem acyclic_of_rank (m : OrgMap) (rank : String → Nat)
    (h : ∀ kv ∈ m, kv.2.OrgParentID.Valid = true →
      rank kv.2.OrgParentID.String < rank kv.2.OrgID) (root : String) :
    Acyclic m root := by
  have hstep : ∀ x y, Child m x y → rank x < rank y := by
    intro x y hxy
    obtain ⟨kv, hm, hv, rfl, rfl⟩ := child_parent_valid hxy
    exact h kv hm hv
  have htrans : ∀ x y, Relation.TransGen (Child m) x y → rank x < rank y := by
    intro x y hxy
    induction hxy with
    | single h1 => exact hstep _ _ h1
    | tail _ h2 ih => exact lt_trans ih (hstep _ _ h2)
  intro c _ hc
  exact lt_irrefl _ (htrans c c hc)

/-- What is reachable is the start or the `org_id` of a record with a valid
parent. -/
theorem reach_target {m : OrgMap} {x y : String} (h : Reach m x y) :
    y = x ∨ ∃ kv ∈ m, kv.2.OrgParentID.Valid = true ∧ kv.2.OrgID = y := by
  rcases Relation.ReflTransGen.cases_tail h with h1 | ⟨z, -, hzy⟩
  · exact Or.inl h1
  · obtain ⟨kv, hm, hv, -, hy⟩ := child_parent_valid hzy
    exact Or.inr ⟨kv, hm, hv, hy⟩

theorem lookup_none_of_not_key {m : OrgMap} {k : String} (h : k ∉ m.map Prod.fst) :
    m.lookup k = none := by
  cases hl : m.lookup k with
  | none => rfl
  | some org => exact absurd (List.mem_map.2 ⟨(k, org), mem_of_lookup hl, rfl⟩) h

theorem orgHirarki_absent (m : OrgMap) (orgID : String) (h : orgID ∉ m.map Prod.fst)
    (fuel : Nat) : orgHirarki (fuel + 1) m orgID = .error .nilDereference := by
  rw [orgHirarki_succ, lookup_none_of_not_key h]

theorem diverges_of_cycle (m : OrgMap) (root : String) (hwk : WellKeyed m)
    (hroot : root ∈ m.map Prod.fst) (hcyc : HasCycle m root) : Diverges m root := by
  intro fuel
  cases h : orgHirarki fuel m root with
  | ok t => exact absurd h (orgHirarki_cycle_not_ok m fuel root t hcyc)
  | error e =>
    cases e with
    | nilDereference => exact absurd h (orgHirarki_ne_nilDereference m hwk fuel root hroot)
    | fuelExhausted => rfl

theorem exampleMap_acyclic (root : String) : Acyclic exampleMap root :=
  acyclic_of_rank exampleMap exampleRank (by decide) root

theorem staleMap_acyclic (root : String) : Acyclic staleMap root :=
  acyclic_of_rank staleMap (fun _ => 0) (by decide) root

theorem staleMap_returns :
    ∀ fuel, staleMap.length < fuel → orgHirarki fuel staleMap "A" =
      .ok ⟨"A", "Acme", noParent, [⟨"Z", "Zed", noParent, []⟩]⟩ :=
  fun fuel hf => orgHirarki_mono staleMap "A" _ 2 fuel hf rfl

/-! ## C1 -/

/-- C1, counterexample: `staleMap` stores its record under its own `org_id`,
contains the root `A` and has no cycle, yet the tree returned for `A` has a
node `Z` that is not reachable from `A` in the map. -/
theorem c1_counterexample :
    WellKeyed staleMap ∧ "A" ∈ staleMap.map Prod.fst ∧ Acyclic staleMap "A" ∧
      ∃ t, (∀ fuel, staleMap.length < fuel → orgHirarki fuel staleMap "A" = .ok t) ∧
        "Z" ∈ t.ids ∧ ¬ Reach staleMap "A" "Z" := by
  refine ⟨by decide, by decide, staleMap_acyclic "A", _, staleMap_returns, by decide, ?_⟩
  intro h
  rcases reach_target h with h1 | ⟨kv, hm, hv, -⟩
  · exact absurd h1 (by decide)
  · revert kv
    decide

/-- C1 (amended): on a map whose records are stored under their own `org_id`,
whose records without child records carry no `OrgChilds` of their own, that
contains the root and has no cycle reachable from it, `orgHirarki` returns
(at every recursion bound above the number of records) and the `org_id`s of
the nodes of the returned tree are exactly the ids reachable from the
root along parent->child edges. -/
theorem orgHirarki_ids_reachable (m : OrgMap) (root : String) (hwk : WellKeyed m)
    (hlc : LeafClean m) (hroot : root ∈ m.map Prod.fst) (hac : Acyclic m root) :
    ∃ t, (∀ fuel, m.length < fuel → orgHirarki fuel m root = .ok t) ∧
      ∀ x, x ∈ t.ids ↔ Reach m root x := by
  obtain ⟨t, ht⟩ := orgHirarki_returns m hwk root hroot hac
  exact ⟨t, ht, mem_ids_iff_reach m hwk hlc _ root t (ht (m.length + 1) (Nat.lt_succ_self _))⟩

theorem exampleMap_leafClean : LeafClean exampleMap := by decide

/-- C1, witness: the end-to-end record set with root `A`. -/
theorem orgHirarki_ids_reachable_witness :
    WellKeyed exampleMap ∧ LeafClean exampleMap ∧ "A" ∈ exampleMap.map Prod.fst ∧
      Acyclic exampleMap "A" ∧
      ∃ t, (∀ fuel, exampleMap.length < fuel → orgHirarki fuel exampleMap "A" = .ok t) ∧
        ∀ x, x ∈ t.ids ↔ Reach exampleMap "A" x :=
  ⟨by decide, exampleMap_leafClean, by decide, exampleMap_acyclic "A",
    orgHirarki_ids_reachable exampleMap "A" (by decide) exampleMap_leafClean (by decide)
      (exampleMap_acyclic "A")⟩

/-! ## C2 -/

/-- C2, counterexample: on the empty map the call for root `A` ends in the
nil-pointer fault of `*orgMap[orgID]`, for `orgHirarki` and for
`GenerateJSONStructure`; no root-missing condition is reported. -/
theorem c2_counterexample :
    "A" ∉ ([] : OrgMap).map Prod.fst ∧
      orgHirarki 1 [] "A" = .error .nilDereference ∧
      GenerateJSONStructure quotePlain 1 [] "A" = .error .nilDereference := by
  decide

/-- C2 (amended): for every map and every id that is not a key of it, the
first statement of `orgHirarki` dereferences a nil pointer: the call, and
`GenerateJSONStructure` with it, ends in that run-time fault at every positive
recursion bound, and returns no tree at any bound. -/
theorem orgHirarki_root_absent (quote : String → String) (m : OrgMap) (organizationID : String)
    (h : organizationID ∉ m.map Prod.fst) (fuel : Nat) :
    orgHirarki (fuel + 1) m organizationID = .error .nilDereference ∧
      GenerateJSONStructure quote (fuel + 1) m organizationID = .error .nilDereference ∧
      ∀ n t, orgHirarki n m organizationID ≠ .ok t := by
  have h1 := orgHirarki_absent m organizationID h
  refine ⟨h1 fuel, by simp [GenerateJSONStructure, h1 fuel], ?_⟩
  intro n t hn
  have h2 := orgHirarki_mono m organizationID t n (n + 1) (Nat.le_succ n) hn
  rw [h1 n] at h2
  cases h2

/-- C2, witness: the id `Z` in the end-to-end record set. -/
theorem orgHirarki_root_absent_witness :
    "Z" ∉ exampleMap.map Prod.fst ∧
      (orgHirarki (4 + 1) exampleMap "Z" = .error .nilDereference ∧
        GenerateJSONStructure quotePlain (4 + 1) exampleMap "Z" = .error .nilDereference ∧
        ∀ n t, orgHirarki n exampleMap "Z" ≠ .ok t) :=
  ⟨by decide, orgHirarki_root_absent quotePlain exampleMap "Z" (by decide) 4⟩

/-! ## C3 -/

theorem cycleMap_hasCycle : HasCycle cycleMap "A" :=
  ⟨"A", Relation.ReflTransGen.refl,
    Relation.TransGen.tail (Relation.TransGen.single (by decide : Child cycleMap "A" "B"))
      (by decide : Child cycleMap "B" "A")⟩

/-- C3, counterexample: for the records A with parent B and B with parent A and
root `A`, the call exceeds every recursion bound: it never returns, and no
cycle condition is reported. -/
theorem c3_counterexample :
    WellKeyed cycleMap ∧ "A" ∈ cycleMap.map Prod.fst ∧ HasCycle cycleMap "A" ∧
      Diverges cycleMap "A" :=
  ⟨by decide, by decide, cycleMap_hasCycle,
    diverges_of_cycle cycleMap "A" (by decide) (by decide) cycleMap_hasCycle⟩

/-- C3 (amended): on a map whose records are stored under their own `org_id`,
when a cycle of parent links (a record that is its own parent included) can
be reached from a root that is present, `orgHirarki` recurses without bound:
at every recursion bound the call is still running, and it returns no tree
and no fault. -/
theorem orgHirarki_cycle_diverges (m : OrgMap) (root : String) (hwk : WellKeyed m)
    (hroot : root ∈ m.map Prod.fst) (hcyc : HasCycle m root) :
    ∀ fuel, orgHirarki fuel m root = .error .fuelExhausted :=
  diverges_of_cycle m root hwk hroot hcyc

/-- C3, witness: a record that is its own parent. -/
theorem orgHirarki_cycle_diverges_witness :
    WellKeyed selfMap ∧ "S" ∈ selfMap.map Prod.fst ∧ HasCycle selfMap "S" ∧
      ∀ fuel, orgHirarki fuel selfMap "S" = .error .fuelExhausted :=
  have hc : HasCycle selfMap "S" :=
    ⟨"S", Relation.ReflTransGen.refl,
      Relation.TransGen.single (by decide : Child selfMap "S" "S")⟩
  ⟨by decide, by decide, hc, orgHirarki_cycle_diverges selfMap "S" (by decide) (by decide) hc⟩

/-! ## C4 -/

/-- C4, counterexample: in `staleMap` no record is a child of `A`, yet the node
returned for `A` has a child: the `OrgChilds` the input record carried. -/
theorem c4_counterexample :
    WellKeyed staleMap ∧ Acyclic staleMap "A" ∧ "A" ∈ staleMap.map Prod.fst ∧
      childRecords staleMap "A" = [] ∧
      ∃ t, (∀ fuel, staleMap.length < fuel → orgHirarki fuel staleMap "A" = .ok t) ∧
        t.OrgChilds.map Organization.OrgID = ["Z"] :=
  ⟨by decide, staleMap_acyclic "A", by decide, by decide, _, staleMap_returns, by decide⟩

/-- C4 (amended): on a map whose records are stored under their own `org_id`
and whose parent links below `orgID` are acyclic, with `org` the record
stored under `orgID`, `orgHirarki` returns a node with the `org_id`, name
and parent of `org`; there is exactly one node per child record of `orgID`,
in the order in which the map enumerates those records, each being what
`orgHirarki` returns for that child; when there is at least one child
record these nodes are the `OrgChilds` of the returned node, and when there
is none the returned node keeps the `OrgChilds` of `org`. -/
theorem orgHirarki_children (m : OrgMap) (orgID : String) (org : Organization)
    (hwk : WellKeyed m) (hac : Acyclic m orgID) (hl : m.lookup orgID = some org) :
    ∃ t cs, (∀ fuel, m.length < fuel → orgHirarki fuel m orgID = .ok t) ∧
      List.Forall₂ (fun kv c => ∀ fuel, m.length < fuel → orgHirarki fuel m kv.2.OrgID = .ok c)
        (childRecords m orgID) cs ∧
      t.OrgID = org.OrgID ∧ t.OrgName = org.OrgName ∧ t.OrgParentID = org.OrgParentID ∧
      (cs ≠ [] → t.OrgChilds = cs) ∧ (cs = [] → t.OrgChilds = org.OrgChilds) := by
  have hkey : orgID ∈ m.map Prod.fst := List.mem_map.2 ⟨(orgID, org), mem_of_lookup hl, rfl⟩
  obtain ⟨t, ht⟩ := orgHirarki_returns m hwk orgID hkey hac
  obtain ⟨org', cs, hl', hf, hshape⟩ :=
    (orgHirarki_ok_iff m.length m orgID t).1 (ht (m.length + 1) (Nat.lt_succ_self _))
  rw [hl] at hl'
  injection hl' with hl'
  subst hl'
  refine ⟨t, cs, ht, ?_, ?_⟩
  · refine hf.imp ?_
    intro kv c hc fuel hfuel
    exact orgHirarki_mono m _ c m.length fuel (Nat.le_of_lt hfuel) hc
  · by_cases hlen : cs.length > 0
    · rw [if_pos hlen] at hshape
      subst hshape
      refine ⟨rfl, rfl, rfl, fun _ => rfl, ?_⟩
      intro hnil
      rw [hnil] at hlen
      simp at hlen
    · rw [if_neg hlen] at hshape
      subst hshape
      refine ⟨rfl, rfl, rfl, ?_, fun _ => rfl⟩
      intro hne
      cases cs with
      | nil => exact absurd rfl hne
      | cons c cs => simp at hlen

/-- C4, witness: the node `A` of the end-to-end record set. -/
theorem orgHirarki_children_witness :
    WellKeyed exampleMap ∧ Acyclic exampleMap "A" ∧
      exampleMap.lookup "A" = some ⟨"A", "Acme", noParent, []⟩ ∧
      ∃ t cs, (∀ fuel, exampleMap.length < fuel → orgHirarki fuel exampleMap "A" = .ok t) ∧
        List.Forall₂
          (fun kv c => ∀ fuel, exampleMap.length < fuel →
            orgHirarki fuel exampleMap kv.2.OrgID = .ok c)
          (childRecords exampleMap "A") cs ∧
        t.OrgID = "A" ∧ t.OrgName = "Acme" ∧ t.OrgParentID = noParent ∧
        (cs ≠ [] → t.OrgChilds = cs) ∧ (cs = [] → t.OrgChilds = []) :=
  ⟨by decide, exampleMap_acyclic "A", by decide,
    orgHirarki_children exampleMap "A" ⟨"A", "Acme", noParent, []⟩ (by decide)
      (exampleMap_acyclic "A") (by decide)⟩

/-! ## Two enumerations of one map -/

theorem isMap_perm {m₁ m₂ : OrgMap} (hp : m₁.Perm m₂) (hm : IsMap m₁) : IsMap m₂ :=
  (hp.map Prod.fst).nodup_iff.1 hm

theorem lookup_perm {m₁ m₂ : OrgMap} (hp : m₁.Perm m₂) (hm : IsMap m₁) (k : String) :
    m₁.lookup k = m₂.lookup k := by
  cases h : m₁.lookup k with
  | some org =>
    exact (lookup_of_mem (isMap_perm hp hm) (hp.subset (mem_of_lookup h))).symm
  | none =>
    cases h2 : m₂.lookup k with
    | none => rfl
    | some org =>
      have := lookup_of_mem hm (hp.symm.subset (mem_of_lookup h2))
      rw [h] at this
      cases this

theorem childRecords_perm {m₁ m₂ : OrgMap} (hp : m₁.Perm m₂) (orgID : String) :
    (childRecords m₁ orgID).Perm (childRecords m₂ orgID) :=
  hp.filter _

theorem forall₂_glue {α β : Type} {P Q : α → β → Prop} {R : β → β → Prop}
    (hR : ∀ a x y, P a x → Q a y → R x y) :
    ∀ {l : List α} {xs ys : List β}, List.Forall₂ P l xs → List.Forall₂ Q l ys →
      List.Forall₂ R xs ys := by
  intro l
  induction l with
  | nil =>
    intro xs ys h1 h2
    rw [List.forall₂_nil_left_iff] at h1 h2
    subst h1; subst h2
    exact List.Forall₂.nil
  | cons a l ih =>
    intro xs ys h1 h2
    rw [List.forall₂_cons_left_iff] at h1 h2
    obtain ⟨x, xs', hx, hxs, rfl⟩ := h1
    obtain ⟨y, ys', hy, hys, rfl⟩ := h2
    exact List.Forall₂.cons (hR a x y hx hy) (ih hxs hys)

theorem idsList_eq_flatMap (cs : List Organization) :
    idsList cs = cs.flatMap Organization.ids := by
  induction cs with
  | nil => rfl
  | cons c cs ih => simp [idsList, ih]

/-- Trees equal up to the order of children have the same nodes, up to order. -/
theorem SameUpToOrder.ids_perm {a b : Organization} (h : SameUpToOrder a b) :
    a.ids.Perm b.ids := by
  refine @SameUpToOrder.rec (fun a b _ => a.ids.Perm b.ids)
    (fun l₁ l₂ _ => (idsList l₁).Perm (idsList l₂)) ?_ ?_ ?_ ?_ a b h
  · intro t
    exact List.Perm.refl _
  · intro a b cs hid _ _ hperm _ ih
    rw [ids_eq a, ids_eq b, hid]
    refine List.Perm.cons _ (List.Perm.trans ?_ ih)
    rw [idsList_eq_flatMap, idsList_eq_flatMap]
    exact hperm.flatMap_right _
  · exact List.Perm.refl _
  · intro a b l₁ l₂ _ _ ih1 ih2
    simp only [idsList]
    exact List.Perm.append ih1 ih2

/-- Enumerating a map in another order changes what `orgHirarki` returns at
most in the order of the children of each node. -/
theorem orgHirarki_perm (m₁ m₂ : OrgMap) (hp : m₁.Perm m₂) (hm : IsMap m₁) :
    ∀ (fuel : Nat) (orgID : String),
      OutcomeEquiv (orgHirarki fuel m₁ orgID) (orgHirarki fuel m₂ orgID) := by
  intro fuel
  induction fuel with
  | zero => intro orgID; simp [orgHirarki, OutcomeEquiv]
  | succ n ih =>
    intro orgID
    cases h1 : orgHirarki (n + 1) m₁ orgID with
    | ok t₁ =>
      obtain ⟨org, cs₁, hl, hf₁, ht₁⟩ := (orgHirarki_ok_iff n m₁ orgID t₁).1 h1
      have hl₂ : m₂.lookup orgID = some org := by rw [← lookup_perm hp hm]; exact hl
      have hloop : ∃ r, rangeLoop (orgHirarki n m₂) orgID m₂ [] = .ok r := by
        apply rangeLoop_returns
        intro kv hkv hc
        obtain ⟨c, -, hc1⟩ :=
          forall₂_mem_left hf₁ (mem_childRecords.2 ⟨hp.symm.subset hkv, hc⟩)
        have := ih kv.2.OrgID
        rw [hc1] at this
        cases h2 : orgHirarki n m₂ kv.2.OrgID with
        | ok c₂ => exact ⟨c₂, rfl⟩
        | error e => rw [h2] at this; exact absurd this (by simp [OutcomeEquiv])
      obtain ⟨cs₂, hr⟩ := hloop
      obtain ⟨cs₂', hcs, hf₂⟩ := (rangeLoop_ok_iff _ _ _ _ _).1 hr
      simp only [List.nil_append] at hcs
      subst hcs
      have hcomp : Relation.Comp List.Perm (List.Forall₂
          (fun (kv : String × Organization) c => orgHirarki n m₁ kv.2.OrgID = .ok c))
          (childRecords m₂ orgID) cs₁ :=
        ⟨childRecords m₁ orgID, (childRecords_perm hp orgID).symm, hf₁⟩
      rw [← List.forall₂_comp_perm_eq_perm_comp_forall₂] at hcomp
      obtain ⟨bs, hbs, hperm⟩ := hcomp
      have hsame : List.Forall₂ SameUpToOrder bs cs₂ := by
        refine forall₂_glue ?_ hbs hf₂
        intro kv x y hx hy
        have := ih kv.2.OrgID
        rw [hx, hy] at this
        exact this
      have hlen : cs₁.length = cs₂.length := by
        rw [← hperm.length_eq, hsame.length_eq]
      have h2 : orgHirarki (n + 1) m₂ orgID =
          .ok (if cs₂.length > 0 then { org with OrgChilds := cs₂ } else org) :=
        (orgHirarki_ok_iff n m₂ orgID _).2 ⟨org, cs₂, hl₂, hf₂, rfl⟩
      rw [h2, ht₁]
      simp only [OutcomeEquiv]
      by_cases hpos : cs₂.length > 0
      · rw [if_pos hpos, if_pos (hlen ▸ hpos)]
        exact SameUpToOrder.node _ _ bs rfl rfl rfl hperm.symm hsame
      · rw [if_neg hpos, if_neg (hlen ▸ hpos)]
        exact SameUpToOrder.refl _
    | error e₁ =>
      cases h2 : orgHirarki (n + 1) m₂ orgID with
      | error e₂ => simp [OutcomeEquiv]
      | ok t₂ =>
        exfalso
        obtain ⟨org, cs₂, hl, hf₂, -⟩ := (orgHirarki_ok_iff n m₂ orgID t₂).1 h2
        have hl₁ : m₁.lookup orgID = some org := by rw [lookup_perm hp hm]; exact hl
        have hloop : ∃ r, rangeLoop (orgHirarki n m₁) orgID m₁ [] = .ok r := by
          apply rangeLoop_returns
          intro kv hkv hc
          obtain ⟨c, -, hc2⟩ :=
            forall₂_mem_left hf₂ (mem_childRecords.2 ⟨hp.subset hkv, hc⟩)
          have := ih kv.2.OrgID
          rw [hc2] at this
          cases h3 : orgHirarki n m₁ kv.2.OrgID with
          | ok c₁ => exact ⟨c₁, rfl⟩
          | error e => rw [h3] at this; exact absurd this (by simp [OutcomeEquiv])
        obtain ⟨r, hr⟩ := hloop
        rw [orgHirarki_succ, hl₁] at h1
        simp only [hr] at h1
        split_ifs at h1

/-! ## C5 -/

theorem orgHirarki_id (m : OrgMap) (hwk : WellKeyed m) (fuel : Nat) (orgID : String)
    (t : Organization) (h : orgHirarki fuel m orgID = .ok t) : t.OrgID = orgID := by
  cases fuel with
  | zero => cases h
  | succ n =>
    obtain ⟨org, cs, hl, -, ht⟩ := (orgHirarki_ok_iff n m orgID t).1 h
    have hid : orgID = org.OrgID := hwk _ (mem_of_lookup hl)
    subst ht
    split_ifs <;> exact hid.symm

theorem wellKeyed_perm {m₁ m₂ : OrgMap} (hp : m₁.Perm m₂) (hwk : WellKeyed m₁) :
    WellKeyed m₂ :=
  fun kv hkv => hwk kv (hp.symm.subset hkv)

/-- The children of a returned node with at least one child record carry the
`org_id`s of the child records, in the order of enumeration. -/
theorem orgHirarki_child_order (m : OrgMap) (hwk : WellKeyed m) (fuel : Nat) (orgID : String)
    (t : Organization) (h : orgHirarki (fuel + 1) m orgID = .ok t)
    (hne : childRecords m orgID ≠ []) :
    t.OrgChilds.map Organization.OrgID = (childRecords m orgID).map (fun kv => kv.2.OrgID) := by
  obtain ⟨org, cs, -, hf, ht⟩ := (orgHirarki_ok_iff fuel m orgID t).1 h
  have hpos : cs.length > 0 := by
    rw [← hf.length_eq]
    exact List.length_pos.2 hne
  rw [if_pos hpos] at ht
  subst ht
  show cs.map Organization.OrgID = _
  have hids : List.Forall₂ (fun (kv : String × Organization) (c : Organization) =>
      kv.2.OrgID = c.OrgID) (childRecords m orgID) cs :=
    hf.imp (fun kv c hc => (orgHirarki_id m hwk fuel _ c hc).symm)
  clear hf hpos hne h
  generalize childRecords m orgID = l at hids
  induction hids with
  | nil => rfl
  | cons h1 _ ih => simp [h1, ih]

/-- C5, counterexample: `exampleMap` and `exampleMapCB` enumerate the same four
records (a valid rooted tree), and the trees and the JSON strings returned
for root `A` differ: the children of `A` come out as B, C for one and as
C, B for the other. -/
theorem c5_counterexample :
    exampleMap.Perm exampleMapCB ∧ IsMap exampleMap ∧ WellKeyed exampleMap ∧
      Acyclic exampleMap "A" ∧
      orgHirarki 5 exampleMap "A" = .ok (exampleTree true) ∧
      orgHirarki 5 exampleMapCB "A" = .ok (exampleTree false) ∧
      exampleTree true ≠ exampleTree false ∧
      GenerateJSONStructure quotePlain 5 exampleMap "A" ≠
        GenerateJSONStructure quotePlain 5 exampleMapCB "A" := by
  refine ⟨by decide, ?_, by decide, exampleMap_acyclic "A", by decide, by decide, by decide,
    by decide⟩
  unfold IsMap
  decide

theorem toJsonList_eq_map (cs : List Organization) :
    toJsonList cs = cs.map Organization.toJson := by
  induction cs with
  | nil => rfl
  | cons c cs ih => simp [toJsonList, ih]

theorem toJson_leaf (n : Organization) (h : n.OrgChilds = []) :
    n.toJson = .obj [("org_id", .str n.OrgID), ("org_name", .str n.OrgName)] := by
  obtain ⟨i, nm, p, cs⟩ := n
  simp only at h
  subst h
  simp [Organization.toJson]

theorem toJson_inner (n : Organization) (h : n.OrgChilds ≠ []) :
    n.toJson = .obj [("org_id", .str n.OrgID), ("org_name", .str n.OrgName),
      ("org_childs", .arr (n.OrgChilds.map Organization.toJson))] := by
  obtain ⟨i, nm, p, cs⟩ := n
  cases cs with
  | nil => exact absurd rfl h
  | cons c cs => simp [Organization.toJson, toJsonList_eq_map, toJsonList]

/-- The node for every record reachable from the root is a node of the
returned tree, and is what `orgHirarki` returns for that record. -/
theorem reach_node (m : OrgMap) :
    ∀ (fuel : Nat) (root : String) (t : Organization),
      orgHirarki fuel m root = .ok t → ∀ x, Reach m root x →
        ∃ n ∈ t.nodes, ∃ k, orgHirarki (k + 1) m x = .ok n := by
  intro fuel
  induction fuel with
  | zero => intro root t h; cases h
  | succ k ih =>
    intro root t h x hx
    rcases Relation.ReflTransGen.cases_head hx with rfl | ⟨y, ⟨kv, hm, hc, rfl⟩, hyx⟩
    · refine ⟨t, ?_, k, h⟩
      rw [nodes_eq]
      exact List.mem_cons_self _ _
    · obtain ⟨org, cs, -, hf, ht⟩ := (orgHirarki_ok_iff k m root t).1 h
      obtain ⟨c, hcs, hok⟩ := forall₂_mem_left hf (mem_childRecords.2 ⟨hm, hc⟩)
      obtain ⟨n, hn, k', hk'⟩ := ih _ c hok x hyx
      have hpos : cs.length > 0 := List.length_pos_of_mem hcs
      rw [if_pos hpos] at ht
      refine ⟨n, ?_, k', hk'⟩
      rw [nodes_eq, ht]
      exact List.mem_cons_of_mem _ (mem_nodesList.2 ⟨c, hcs, hn⟩)

/-- In the tree returned under an enumeration, the node of every record
reachable from the root lists its children in the order in which the
enumeration lists the child records. -/
theorem reach_child_order (m : OrgMap) (hwk : WellKeyed m) (fuel : Nat) (root : String)
    (t : Organization) (h : orgHirarki fuel m root = .ok t) (x : String)
    (hx : Reach m root x) :
    ∃ n ∈ t.nodes, n.OrgID = x ∧
      (childRecords m x ≠ [] → n.OrgChilds.map Organization.OrgID =
        (childRecords m x).map (fun kv => kv.2.OrgID)) := by
  obtain ⟨n, hn, k, hk⟩ := reach_node m fuel root t h x hx
  exact ⟨n, hn, orgHirarki_id m hwk _ x n hk, orgHirarki_child_order m hwk k x n hk⟩

/-- Trees equal up to the order of children have JSON values equal up to the
order of the elements of the `org_childs` arrays. -/
theorem SameUpToOrder.toJson_upToOrder {a b : Organization} (h : SameUpToOrder a b) :
    JsonUpToOrder a.toJson b.toJson := by
  refine @SameUpToOrder.rec (fun a b _ => JsonUpToOrder a.toJson b.toJson)
    (fun l₁ l₂ _ => JsonElemsUpToOrder (l₁.map Organization.toJson)
      (l₂.map Organization.toJson)) ?_ ?_ ?_ ?_ a b h
  · intro t
    exact JsonUpToOrder.refl _
  · intro a b cs hid hname _ hperm hf ih
    by_cases hnil : a.OrgChilds = []
    · have hcs : cs = [] := by
        rw [hnil] at hperm
        exact List.perm_nil.1 hperm.symm
      have hb : b.OrgChilds = [] := by
        rw [hcs] at hf
        exact List.forall₂_nil_left_iff.1 hf
      rw [toJson_leaf a hnil, toJson_leaf b hb, hid, hname]
      exact JsonUpToOrder.refl _
    · have hcs : cs ≠ [] := by
        intro h0
        rw [h0] at hperm
        exact hnil (List.perm_nil.1 hperm)
      have hb : b.OrgChilds ≠ [] := by
        intro h0
        rw [h0] at hf
        exact hcs (List.forall₂_nil_right_iff.1 hf)
      rw [toJson_inner a hnil, toJson_inner b hb, hid, hname]
      refine JsonUpToOrder.obj _ _ ?_
      refine JsonFieldsUpToOrder.cons _ _ _ _ _ (JsonUpToOrder.refl _) ?_
      refine JsonFieldsUpToOrder.cons _ _ _ _ _ (JsonUpToOrder.refl _) ?_
      refine JsonFieldsUpToOrder.cons _ _ _ _ _ ?_ JsonFieldsUpToOrder.nil
      exact JsonUpToOrder.arr _ _ _ (hperm.map _) ih
  · exact JsonElemsUpToOrder.nil
  · intro a b l₁ l₂ _ _ ih1 ih2
    simp only [List.map_cons]
    exact JsonElemsUpToOrder.cons _ _ _ _ ih1 ih2

theorem generateJSON_of_ok (quote : String → String) (fuel : Nat) (m : OrgMap)
    (root : String) (t : Organization) (h : orgHirarki fuel m root = .ok t) :
    GenerateJSONStructure quote fuel m root = .ok (t.toJson.render quote) := by
  simp [GenerateJSONStructure, h]

theorem reach_perm {m₁ m₂ : OrgMap} (hp : m₁.Perm m₂) {x y : String} (h : Reach m₁ x y) :
    Reach m₂ x y := by
  refine Relation.ReflTransGen.mono ?_ h
  rintro a b ⟨kv, hm, hc, hy⟩
  exact ⟨kv, hp.subset hm, hc, hy⟩

/-- C5 (amended): for two enumerations of one map whose records are stored
under their own `org_id`, with the root present and no cycle reachable from
it, `orgHirarki` and `GenerateJSONStructure` return under both; the two
trees are equal up to the order of the children of each node (so they have
the same nodes), and the two strings are the renderings of JSON values that
are equal up to the order of the elements of the `org_childs` arrays; under
each enumeration the node of every record reachable from the root (the
root included) lists its children in the order in which that enumeration
lists the child records, so the tree and its JSON depend on the
enumeration and not on the record set alone. -/
theorem orgHirarki_enumerations (quote : String → String) (m₁ m₂ : OrgMap) (root : String)
    (hp : m₁.Perm m₂) (hm : IsMap m₁) (hwk : WellKeyed m₁) (hroot : root ∈ m₁.map Prod.fst)
    (hac : Acyclic m₁ root) :
    ∃ t₁ t₂,
      (∀ fuel, m₁.length < fuel → orgHirarki fuel m₁ root = .ok t₁ ∧
        GenerateJSONStructure quote fuel m₁ root = .ok (t₁.toJson.render quote)) ∧
      (∀ fuel, m₂.length < fuel → orgHirarki fuel m₂ root = .ok t₂ ∧
        GenerateJSONStructure quote fuel m₂ root = .ok (t₂.toJson.render quote)) ∧
      SameUpToOrder t₁ t₂ ∧ t₁.ids.Perm t₂.ids ∧ JsonUpToOrder t₁.toJson t₂.toJson ∧
      (childRecords m₁ root ≠ [] → t₁.OrgChilds.map Organization.OrgID =
        (childRecords m₁ root).map (fun kv => kv.2.OrgID)) ∧
      (childRecords m₂ root ≠ [] → t₂.OrgChilds.map Organization.OrgID =
        (childRecords m₂ root).map (fun kv => kv.2.OrgID)) ∧
      (∀ x, Reach m₁ root x → ∃ n ∈ t₁.nodes, n.OrgID = x ∧
        (childRecords m₁ x ≠ [] → n.OrgChilds.map Organization.OrgID =
          (childRecords m₁ x).map (fun kv => kv.2.OrgID))) ∧
      (∀ x, Reach m₁ root x → ∃ n ∈ t₂.nodes, n.OrgID = x ∧
        (childRecords m₂ x ≠ [] → n.OrgChilds.map Organization.OrgID =
          (childRecords m₂ x).map (fun kv => kv.2.OrgID))) := by
  obtain ⟨t₁, ht₁⟩ := orgHirarki_returns m₁ hwk root hroot hac
  have h1 := ht₁ (m₁.length + 1) (Nat.lt_succ_self _)
  have heq := orgHirarki_perm m₁ m₂ hp hm (m₁.length + 1) root
  rw [h1] at heq
  cases h2 : orgHirarki (m₁.length + 1) m₂ root with
  | error e => rw [h2] at heq; exact absurd heq (by simp [OutcomeEquiv])
  | ok t₂ =>
    rw [h2] at heq
    have hsame : SameUpToOrder t₁ t₂ := heq
    have hwk₂ := wellKeyed_perm hp hwk
    have ht₂ : ∀ fuel, m₂.length < fuel → orgHirarki fuel m₂ root = .ok t₂ := by
      intro fuel hf
      rw [← hp.length_eq] at hf
      exact orgHirarki_mono m₂ root t₂ _ fuel hf h2
    refine ⟨t₁, t₂, ?_, ?_, hsame, hsame.ids_perm, hsame.toJson_upToOrder, ?_, ?_, ?_, ?_⟩
    · exact fun fuel hf => ⟨ht₁ fuel hf, generateJSON_of_ok quote fuel m₁ root t₁ (ht₁ fuel hf)⟩
    · exact fun fuel hf => ⟨ht₂ fuel hf, generateJSON_of_ok quote fuel m₂ root t₂ (ht₂ fuel hf)⟩
    · exact orgHirarki_child_order m₁ hwk _ root t₁ h1
    · exact orgHirarki_child_order m₂ hwk₂ _ root t₂ h2
    · exact fun x hx => reach_child_order m₁ hwk _ root t₁ h1 x hx
    · exact fun x hx => reach_child_order m₂ hwk₂ _ root t₂ h2 x (reach_perm hp hx)

/-- C5, witness: the two enumerations of the end-to-end record set. -/
theorem orgHirarki_enumerations_witness :
    exampleMap.Perm exampleMapCB ∧ IsMap exampleMap ∧ WellKeyed exampleMap ∧
      "A" ∈ exampleMap.map Prod.fst ∧ Acyclic exampleMap "A" ∧
      ∃ t₁ t₂,
        (∀ fuel, exampleMap.length < fuel → orgHirarki fuel exampleMap "A" = .ok t₁ ∧
          GenerateJSONStructure quotePlain fuel exampleMap "A" =
            .ok (t₁.toJson.render quotePlain)) ∧
        (∀ fuel, exampleMapCB.length < fuel → orgHirarki fuel exampleMapCB "A" = .ok t₂ ∧
          GenerateJSONStructure quotePlain fuel exampleMapCB "A" =
            .ok (t₂.toJson.render quotePlain)) ∧
        SameUpToOrder t₁ t₂ ∧ t₁.ids.Perm t₂.ids ∧ JsonUpToOrder t₁.toJson t₂.toJson ∧
        (childRecords exampleMap "A" ≠ [] → t₁.OrgChilds.map Organization.OrgID =
          (childRecords exampleMap "A").map (fun kv => kv.2.OrgID)) ∧
        (childRecords exampleMapCB "A" ≠ [] → t₂.OrgChilds.map Organization.OrgID =
          (childRecords exampleMapCB "A").map (fun kv => kv.2.OrgID)) ∧
        (∀ x, Reach exampleMap "A" x → ∃ n ∈ t₁.nodes, n.OrgID = x ∧
          (childRecords exampleMap x ≠ [] → n.OrgChilds.map Organization.OrgID =
            (childRecords exampleMap x).map (fun kv => kv.2.OrgID))) ∧
        (∀ x, Reach exampleMap "A" x → ∃ n ∈ t₂.nodes, n.OrgID = x ∧
          (childRecords exampleMapCB x ≠ [] → n.OrgChilds.map Organization.OrgID =
            (childRecords exampleMapCB x).map (fun kv => kv.2.OrgID))) :=
  have hm : IsMap exampleMap := by unfold IsMap; decide
  ⟨by decide, hm, by decide, by decide, exampleMap_acyclic "A",
    orgHirarki_enumerations quotePlain exampleMap exampleMapCB "A" (by decide) hm (by decide)
      (by decide) (exampleMap_acyclic "A")⟩

/-! ## C8 -/

/-- C8, counterexample: when the map of the example enumerates `C` before `B`,
the children of `A` are the list C, B. -/
theorem c8_counterexample :
    exampleMapCB.Perm exampleMap ∧
      orgHirarki 5 exampleMapCB "A" =
        .ok ⟨"A", "Acme", noParent,
          [⟨"C", "Acme-East", parent "A", []⟩,
           ⟨"B", "Acme-West", parent "A", [⟨"D", "Acme-West-1", parent "B", []⟩]⟩]⟩ := by
  decide

theorem mem_insertEverywhere {α : Type} (a : α) (s t : List α) :
    s ++ a :: t ∈ insertEverywhere a (s ++ t) := by
  induction s with
  | nil =>
    cases t with
    | nil => simp [insertEverywhere]
    | cons b t => simp [insertEverywhere]
  | cons b s ih =>
    simp only [List.cons_append, insertEverywhere, List.mem_cons, List.mem_map]
    exact Or.inr ⟨_, ih, rfl⟩

theorem mem_enumerations {α : Type} : ∀ (l l' : List α), l'.Perm l → l' ∈ enumerations l := by
  intro l
  induction l with
  | nil =>
    intro l' hp
    rw [List.perm_nil.1 hp]
    simp [enumerations]
  | cons a l ih =>
    intro l' hp
    have ha : a ∈ l' := hp.symm.subset (List.mem_cons_self _ _)
    obtain ⟨s, t, rfl⟩ := List.append_of_mem ha
    have hst : (s ++ t).Perm l :=
      (List.perm_cons a).1 (List.perm_middle.symm.trans hp)
    simp only [enumerations, List.mem_flatMap]
    exact ⟨s ++ t, ih _ hst, mem_insertEverywhere a s t⟩

theorem example_all_enumerations :
    ∀ m ∈ enumerations exampleMap,
      orgHirarki 5 m "A" = .ok (exampleTree (listsBBeforeC m)) := by
  decide

/-- C8 (amended): for every enumeration of the four records of the example and
root `A`, `orgHirarki` returns node A ("Acme") whose children are B and C in
the order in which the enumeration lists them (B, C when it lists B first,
C, B otherwise), where B ("Acme-West") has the single child D
("Acme-West-1"), and C ("Acme-East") and D have no children. -/
theorem example_tree (m : OrgMap) (hp : m.Perm exampleMap) :
    ∀ fuel, 4 < fuel → orgHirarki fuel m "A" = .ok (exampleTree (listsBBeforeC m)) :=
  fun fuel hf => orgHirarki_mono m "A" _ 5 fuel hf
    (example_all_enumerations m (mem_enumerations _ _ hp))

/-- C8, witness: the enumeration A, B, C, D. -/
theorem example_tree_witness :
    exampleMap.Perm exampleMap ∧
      ∀ fuel, 4 < fuel → orgHirarki fuel exampleMap "A" =
        .ok (exampleTree (listsBBeforeC exampleMap)) :=
  ⟨List.Perm.refl _, example_tree exampleMap (List.Perm.refl _)⟩

/-! ## C6 -/

theorem record_unique {m : OrgMap} (hm : IsMap m) {k : String} {a b : Organization}
    (ha : (k, a) ∈ m) (hb : (k, b) ∈ m) : a = b := by
  have h1 := lookup_of_mem hm ha
  rw [lookup_of_mem hm hb] at h1
  injection h1 with h1
  exact h1.symm

/-- A record has one parent: the `org_id` determines the record. -/
theorem parent_unique {m : OrgMap} (hm : IsMap m) (hwk : WellKeyed m) {x x' y : String}
    (h : Child m x y) (h' : Child m x' y) : x = x' := by
  obtain ⟨kv, hkv, hv, hx, hy⟩ := child_parent_valid h
  obtain ⟨kv', hkv', hv', hx', hy'⟩ := child_parent_valid h'
  obtain ⟨k, o⟩ := kv
  obtain ⟨k', o'⟩ := kv'
  have hk : k = y := (hwk _ hkv).trans hy
  have hk' : k' = y := (hwk _ hkv').trans hy'
  subst hk
  subst hk'
  have := record_unique hm hkv hkv'
  subst this
  exact hx.symm.trans hx'

theorem reach_key {m : OrgMap} (hwk : WellKeyed m) {root x : String}
    (hroot : root ∈ m.map Prod.fst) (h : Reach m root x) : x ∈ m.map Prod.fst := by
  rcases Relation.ReflTransGen.cases_tail h with h1 | ⟨z, -, hzx⟩
  · rw [h1]; exact hroot
  · exact child_key hwk hzx

/-- An orphan, and what descends from it without passing the root, cannot be
reached from the root. -/
theorem orphan_not_reachable (m : OrgMap) (root : String) (hm : IsMap m) (hwk : WellKeyed m)
    (hroot : root ∈ m.map Prod.fst) (k : String) (r : Organization) (hr : (k, r) ∈ m)
    (hne : r.OrgID ≠ root) (hv : r.OrgParentID.Valid = true)
    (hp : r.OrgParentID.String ∉ m.map Prod.fst) (d : String)
    (hd : Relation.ReflTransGen (ChildAvoiding m root) r.OrgID d) : ¬ Reach m root d := by
  induction hd with
  | refl =>
    intro h
    rcases Relation.ReflTransGen.cases_tail h with h1 | ⟨z, hz, hzr⟩
    · exact hne h1
    · have hself : Child m r.OrgParentID.String r.OrgID :=
        ⟨(k, r), hr, by simp [isChildOf, hv], rfl⟩
      have hzeq : z = r.OrgParentID.String := parent_unique hm hwk hzr hself
      exact hp (hzeq ▸ reach_key hwk hroot hz)
  | tail _ hstep ih =>
    intro h
    rcases Relation.ReflTransGen.cases_tail h with h1 | ⟨z, hz, hzc⟩
    · exact hstep.2 h1
    · have hzeq := parent_unique hm hwk hzc hstep.1
      exact ih (hzeq ▸ hz)

theorem orphanMap_returns :
    ∀ fuel, orphanMap.length < fuel → orgHirarki fuel orphanMap "A" =
      .ok ⟨"A", "Acme", noParent, [⟨"R", "Rogue", parent "Z", []⟩]⟩ :=
  fun fuel hf => orgHirarki_mono orphanMap "A" _ 3 fuel hf (by decide)

/-- C6, counterexample: in `orphanMap` the records are stored under their own
`org_id`, the root `A` is present and there is no cycle; the record `R` is
not the root and its valid parent `Z` is not a key; yet the tree returned
for `A` has a node with `org_id` `R`. -/
theorem c6_counterexample :
    IsMap orphanMap ∧ WellKeyed orphanMap ∧ "A" ∈ orphanMap.map Prod.fst ∧
      Acyclic orphanMap "A" ∧
      ("R", (⟨"R", "Rogue", parent "Z", []⟩ : Organization)) ∈ orphanMap ∧
      "R" ≠ "A" ∧ (parent "Z").Valid = true ∧ "Z" ∉ orphanMap.map Prod.fst ∧
      ∃ t, (∀ fuel, orphanMap.length < fuel → orgHirarki fuel orphanMap "A" = .ok t) ∧
        "R" ∈ t.ids := by
  refine ⟨?_, by decide, by decide, ?_, by decide, by decide, by decide, by decide, _,
    orphanMap_returns, by decide⟩
  · unfold IsMap
    decide
  · exact acyclic_of_rank orphanMap (fun s => if s = "R" then 1 else 0) (by decide) "A"

/-- C6 (amended): on a map with distinct keys whose records are stored under
their own `org_id` and whose records without child records carry no
`OrgChilds` of their own, with the root present and no cycle reachable from
it: for every record `r` that is not the root and whose valid parent is not
a key, `orgHirarki` returns a tree none of whose nodes has the `org_id` of
`r`, nor the `org_id` of a record that descends from `r` along
parent->child edges that do not enter the root. -/
theorem orphan_excluded (m : OrgMap) (root : String) (hm : IsMap m) (hwk : WellKeyed m)
    (hlc : LeafClean m) (hroot : root ∈ m.map Prod.fst) (hac : Acyclic m root)
    (k : String) (r : Organization) (hr : (k, r) ∈ m)
    (hne : r.OrgID ≠ root) (hv : r.OrgParentID.Valid = true)
    (hp : r.OrgParentID.String ∉ m.map Prod.fst) :
    ∃ t, (∀ fuel, m.length < fuel → orgHirarki fuel m root = .ok t) ∧
      r.OrgID ∉ t.ids ∧
      ∀ d, Relation.ReflTransGen (ChildAvoiding m root) r.OrgID d → d ∉ t.ids := by
  obtain ⟨t, ht⟩ := orgHirarki_returns m hwk root hroot hac
  have hiff := mem_ids_iff_reach m hwk hlc _ root t (ht (m.length + 1) (Nat.lt_succ_self _))
  have hall : ∀ d, Relation.ReflTransGen (ChildAvoiding m root) r.OrgID d → d ∉ t.ids :=
    fun d hd hin =>
      orphan_not_reachable m root hm hwk hroot k r hr hne hv hp d hd ((hiff d).1 hin)
  exact ⟨t, ht, hall _ Relation.ReflTransGen.refl, hall⟩

theorem strayMap_acyclic (root : String) : Acyclic strayMap root :=
  acyclic_of_rank strayMap strayRank (by decide) root

/-- C6, witness: the orphan `R` of `strayMap`, with the record `S` below it. -/
theorem orphan_excluded_witness :
    IsMap strayMap ∧ WellKeyed strayMap ∧ LeafClean strayMap ∧
      "A" ∈ strayMap.map Prod.fst ∧ Acyclic strayMap "A" ∧
      ("R", (⟨"R", "Rogue", parent "Z", []⟩ : Organization)) ∈ strayMap ∧
      "R" ≠ "A" ∧ (parent "Z").Valid = true ∧ "Z" ∉ strayMap.map Prod.fst ∧
      ∃ t, (∀ fuel, strayMap.length < fuel → orgHirarki fuel strayMap "A" = .ok t) ∧
        "R" ∉ t.ids ∧
        ∀ d, Relation.ReflTransGen (ChildAvoiding strayMap "A") "R" d → d ∉ t.ids :=
  have hm : IsMap strayMap := by unfold IsMap; decide
  ⟨hm, by decide, by decide, by decide, strayMap_acyclic "A", by decide, by decide, by decide,
    by decide,
    orphan_excluded strayMap "A" hm (by decide) (by decide) (by decide) (strayMap_acyclic "A")
      "R" ⟨"R", "Rogue", parent "Z", []⟩ (by decide) (by decide) (by decide) (by decide)⟩

/-! ## C7 -/

theorem render_leaf (quote : String → String) (a b : String) :
    (Json.obj [("org_id", .str a), ("org_name", .str b)]).render quote =
      "\x7b" ++ (quote "org_id" ++ ":" ++ quote a ++ "," ++
        (quote "org_name" ++ ":" ++ quote b)) ++ "\x7d" := by
  simp [Json.render, renderFields]

theorem nodes_trans : ∀ (t n c : Organization), n ∈ t.nodes → c ∈ n.nodes → c ∈ t.nodes := by
  intro t
  refine @Organization.rec (fun t => ∀ n c, n ∈ t.nodes → c ∈ n.nodes → c ∈ t.nodes)
    (fun l => ∀ n c, n ∈ nodesList l → c ∈ n.nodes → c ∈ nodesList l) ?_ ?_ ?_ t
  · intro i nm p cs ih n c hn hc
    rw [nodes_eq] at hn ⊢
    rcases List.mem_cons.1 hn with rfl | hn
    · rw [nodes_eq] at hc
      exact hc
    · exact List.mem_cons_of_mem _ (ih n c hn hc)
  · intro n c hn
    simp [nodesList] at hn
  · intro h tl ih1 ih2 n c hn hc
    simp only [nodesList, List.mem_append] at hn ⊢
    rcases hn with hn | hn
    · exact Or.inl (ih1 n c hn hc)
    · exact Or.inr (ih2 n c hn hc)

theorem child_mem_nodes (t n c : Organization) (hn : n ∈ t.nodes) (hc : c ∈ n.OrgChilds) :
    c ∈ t.nodes := by
  apply nodes_trans t n c hn
  rw [nodes_eq n]
  refine List.mem_cons_of_mem _ (mem_nodesList.2 ⟨c, hc, ?_⟩)
  rw [nodes_eq c]
  exact List.mem_cons_self _ _

/-- C7, counterexample: in `staleMap` no record is a child of `A`, yet the node
returned for `A` has a non-empty `OrgChilds` and its JSON object has the
key `org_childs`; in `misKeyedMap`, whose records carry no `OrgChilds`, the
node returned for the key `A` has `org_id` `X`, no record is a child of `X`,
yet the node has a child. -/
theorem c7_counterexample :
    (childRecords staleMap "A" = [] ∧
      orgHirarki 2 staleMap "A" = .ok ⟨"A", "Acme", noParent, [⟨"Z", "Zed", noParent, []⟩]⟩ ∧
      GenerateJSONStructure quotePlain 2 staleMap "A" =
        .ok ("\x7b\"org_id\":\"A\",\"org_name\":\"Acme\",\"org_childs\":" ++
          "[\x7b\"org_id\":\"Z\",\"org_name\":\"Zed\"\x7d]\x7d")) ∧
    (LeafClean misKeyedMap ∧ childRecords misKeyedMap "X" = [] ∧
      orgHirarki 3 misKeyedMap "A" =
        .ok ⟨"X", "Acme", noParent, [⟨"B", "Beta", parent "A", []⟩]⟩ ∧
      GenerateJSONStructure quotePlain 3 misKeyedMap "A" =
        .ok ("\x7b\"org_id\":\"X\",\"org_name\":\"Acme\",\"org_childs\":" ++
          "[\x7b\"org_id\":\"B\",\"org_name\":\"Beta\"\x7d]\x7d")) := by
  decide

/-- C7 (amended): on a map whose records are stored under their own `org_id`
and whose records without child records carry no `OrgChilds` of their own,
`GenerateJSONStructure` returns the rendering of the JSON value of the tree
that `orgHirarki` returns, and for every node of that tree: when the node
has no child record its `OrgChilds` is empty and its JSON object has exactly
the members `org_id` and `org_name`; when it has a child record its
`OrgChilds` has one node per child record and its JSON object has the
members `org_id`, `org_name` and `org_childs`, the latter a non-empty array
of the JSON objects of its children, which are nodes of the tree too. -/
theorem leaf_has_no_org_childs (quote : String → String) (m : OrgMap) (root : String)
    (fuel : Nat) (t : Organization) (hwk : WellKeyed m) (hlc : LeafClean m)
    (h : orgHirarki fuel m root = .ok t) (n : Organization) (hn : n ∈ t.nodes) :
    GenerateJSONStructure quote fuel m root = .ok (t.toJson.render quote) ∧
      (childRecords m n.OrgID = [] →
        n.OrgChilds = [] ∧
        n.toJson = .obj [("org_id", .str n.OrgID), ("org_name", .str n.OrgName)] ∧
        n.toJson.render quote =
          "\x7b" ++ (quote "org_id" ++ ":" ++ quote n.OrgID ++ "," ++
            (quote "org_name" ++ ":" ++ quote n.OrgName)) ++ "\x7d") ∧
      (childRecords m n.OrgID ≠ [] →
        n.OrgChilds ≠ [] ∧ n.OrgChilds.length = (childRecords m n.OrgID).length ∧
        n.toJson = .obj [("org_id", .str n.OrgID), ("org_name", .str n.OrgName),
          ("org_childs", .arr (n.OrgChilds.map Organization.toJson))] ∧
        ∀ c ∈ n.OrgChilds, c ∈ t.nodes) := by
  obtain ⟨k, hk⟩ := node_is_result m hwk hlc fuel root t h n hn
  obtain ⟨-, hf⟩ := orgHirarki_shape m hwk hlc k n.OrgID n hk
  refine ⟨by simp [GenerateJSONStructure, h], ?_, ?_⟩
  · intro hnil
    rw [hnil] at hf
    have hc : n.OrgChilds = [] := List.forall₂_nil_left_iff.1 hf
    refine ⟨hc, toJson_leaf n hc, ?_⟩
    rw [toJson_leaf n hc, render_leaf]
  · intro hne
    have hlen := hf.length_eq
    have hc : n.OrgChilds ≠ [] := by
      intro h0
      rw [h0] at hlen
      exact hne (List.length_eq_zero.1 hlen)
    exact ⟨hc, hlen.symm, toJson_inner n hc, fun c hcm => child_mem_nodes t n c hn hcm⟩

/-- C7, witness: the leaf `D` of the tree of the end-to-end record set. -/
theorem leaf_has_no_org_childs_witness :
    WellKeyed exampleMap ∧ LeafClean exampleMap ∧
      orgHirarki 5 exampleMap "A" = .ok (exampleTree true) ∧
      nodeD ∈ (exampleTree true).nodes ∧
      (GenerateJSONStructure quotePlain 5 exampleMap "A" =
          .ok ((exampleTree true).toJson.render quotePlain) ∧
        (childRecords exampleMap nodeD.OrgID = [] →
          nodeD.OrgChilds = [] ∧
          nodeD.toJson = .obj [("org_id", .str nodeD.OrgID), ("org_name", .str nodeD.OrgName)] ∧
          nodeD.toJson.render quotePlain =
            "\x7b" ++ (quotePlain "org_id" ++ ":" ++ quotePlain nodeD.OrgID ++ "," ++
              (quotePlain "org_name" ++ ":" ++ quotePlain nodeD.OrgName)) ++ "\x7d") ∧
        (childRecords exampleMap nodeD.OrgID ≠ [] →
          nodeD.OrgChilds ≠ [] ∧
          nodeD.OrgChilds.length = (childRecords exampleMap nodeD.OrgID).length ∧
          nodeD.toJson = .obj [("org_id", .str nodeD.OrgID), ("org_name", .str nodeD.OrgName),
            ("org_childs", .arr (nodeD.OrgChilds.map Organization.toJson))] ∧
          ∀ c ∈ nodeD.OrgChilds, c ∈ (exampleTree true).nodes)) :=
  ⟨by decide, by decide, by decide, by decide,
    leaf_has_no_org_childs quotePlain exampleMap "A" 5 (exampleTree true) (by decide) (by decide)
      (by decide) nodeD (by decide)⟩

/-! ## C9 -/

theorem lookup_mapAssign (k : String) (v : Organization) (k' : String) :
    ∀ m : OrgMap, (mapAssign k v m).lookup k' = if k' = k then some v else m.lookup k' := by
  intro m
  induction m with
  | nil =>
    by_cases h : k' = k
    · simp [mapAssign, h]
    · have hb : (k' == k) = false := by simpa using h
      simp [mapAssign, List.lookup, hb, h]
  | cons kv rest ih =>
    obtain ⟨k₀, v₀⟩ := kv
    by_cases h0 : k₀ = k
    · subst h0
      by_cases h : k' = k₀
      · simp [mapAssign, h]
      · have hb : (k' == k₀) = false := by simpa using h
        simp [mapAssign, List.lookup, hb, h]
    · by_cases h : k' = k₀
      · subst h
        have hne : ¬ k' = k := h0
        simp [mapAssign, h0, hne]
      · have hb : (k' == k₀) = false := by simpa using h
        simp only [mapAssign, h0, if_false, List.lookup_cons, hb]
        exact ih

theorem keys_mapAssign (k : String) (v : Organization) :
    ∀ m : OrgMap, (mapAssign k v m).map Prod.fst =
      if k ∈ m.map Prod.fst then m.map Prod.fst else m.map Prod.fst ++ [k] := by
  intro m
  induction m with
  | nil => simp [mapAssign]
  | cons kv rest ih =>
    obtain ⟨k₀, v₀⟩ := kv
    by_cases h0 : k₀ = k
    · subst h0
      simp [mapAssign]
    · have h0' : ¬ k = k₀ := fun h => h0 h.symm
      simp only [mapAssign, h0, if_false, List.map_cons, ih, List.mem_cons, h0', false_or]
      split_ifs <;> simp

theorem isMap_mapAssign (k : String) (v : Organization) (m : OrgMap) (hm : IsMap m) :
    IsMap (mapAssign k v m) := by
  unfold IsMap at hm ⊢
  rw [keys_mapAssign]
  split_ifs with h
  · exact hm
  · exact List.Nodup.append hm (List.nodup_singleton k) (by simpa using h)

theorem mem_mapAssign {k : String} {v : Organization} {kv : String × Organization} :
    ∀ {m : OrgMap}, kv ∈ mapAssign k v m → kv = (k, v) ∨ kv ∈ m := by
  intro m
  induction m with
  | nil => intro h; simpa [mapAssign] using h
  | cons kv₀ rest ih =>
    obtain ⟨k₀, v₀⟩ := kv₀
    intro h
    by_cases h0 : k₀ = k
    · simp only [mapAssign, h0, if_true, List.mem_cons] at h
      rcases h with h | h
      · exact Or.inl h
      · exact Or.inr (List.mem_cons_of_mem _ h)
    · simp only [mapAssign, h0, if_false, List.mem_cons] at h
      rcases h with h | h
      · exact Or.inr (h ▸ List.mem_cons_self _ _)
      · rcases ih h with h | h
        · exact Or.inl h
        · exact Or.inr (List.mem_cons_of_mem _ h)


theorem lookup_foldl_mapAssign (k : String) :
    ∀ (rows : List Row) (init : OrgMap),
      (rows.foldl (fun orgMap r => mapAssign (scanRow r).OrgID (scanRow r) orgMap) init).lookup k =
        match lastRow k rows with
        | some r => some (scanRow r)
        | none => init.lookup k := by
  intro rows
  induction rows with
  | nil => intro init; rfl
  | cons r rs ih =>
    intro init
    rw [List.foldl_cons, ih]
    simp only [lastRow]
    cases lastRow k rs with
    | some r' => rfl
    | none =>
      simp only [lookup_mapAssign]
      by_cases h : k = r.org_id
      · subst h
        simp [scanRow]
      · have h' : ¬ r.org_id = k := fun hh => h hh.symm
        simp [scanRow, h, h']

theorem lookup_rowLoop (rows : List Row) (k : String) :
    (rowLoop rows).lookup k = (lastRow k rows).map scanRow := by
  unfold rowLoop
  rw [lookup_foldl_mapAssign]
  cases lastRow k rows <;> rfl

theorem isMap_foldl_mapAssign :
    ∀ (rows : List Row) (init : OrgMap), IsMap init →
      IsMap (rows.foldl (fun orgMap r => mapAssign (scanRow r).OrgID (scanRow r) orgMap) init) := by
  intro rows
  induction rows with
  | nil => intro init h; exact h
  | cons r rs ih =>
    intro init h
    rw [List.foldl_cons]
    exact ih _ (isMap_mapAssign _ _ _ h)

theorem isMap_rowLoop (rows : List Row) : IsMap (rowLoop rows) :=
  isMap_foldl_mapAssign rows [] List.nodup_nil

theorem scanned_foldl_mapAssign :
    ∀ (rows : List Row) (init : OrgMap),
      (∀ kv ∈ init, ∃ r, kv = (r.org_id, scanRow r)) →
      ∀ kv ∈ rows.foldl (fun orgMap r => mapAssign (scanRow r).OrgID (scanRow r) orgMap) init,
        ∃ r, kv = (r.org_id, scanRow r) := by
  intro rows
  induction rows with
  | nil => intro init h; exact h
  | cons r rs ih =>
    intro init h
    rw [List.foldl_cons]
    apply ih
    intro kv hkv
    rcases mem_mapAssign hkv with h1 | h1
    · exact ⟨r, h1⟩
    · exact h kv h1

/-- The map built by the row loop has distinct keys, stores every record
under its own `org_id`, and its records carry no `OrgChilds`. -/
theorem rowLoop_wellFormed (rows : List Row) :
    IsMap (rowLoop rows) ∧ WellKeyed (rowLoop rows) ∧ LeafClean (rowLoop rows) := by
  have hs := scanned_foldl_mapAssign rows [] (by simp)
  refine ⟨isMap_rowLoop rows, ?_, ?_⟩
  · intro kv hkv
    obtain ⟨r, rfl⟩ := hs kv hkv
    rfl
  · intro kv hkv _
    obtain ⟨r, rfl⟩ := hs kv hkv
    rfl

theorem lastRow_eq_none {k : String} :
    ∀ {rows : List Row}, lastRow k rows = none ↔ ∀ r ∈ rows, r.org_id ≠ k := by
  intro rows
  induction rows with
  | nil => simp [lastRow]
  | cons r rs ih =>
    simp only [lastRow, List.mem_cons, forall_eq_or_imp]
    cases h : lastRow k rs with
    | some r' =>
      simp only [false_iff, not_and, reduceCtorEq]
      intro _ hall
      rw [ih.2 hall] at h
      cases h
    | none =>
      by_cases hk : r.org_id = k
      · simp [hk]
      · simp only [hk, if_false, true_iff]
        exact ⟨hk, ih.1 h⟩

theorem lastRow_dropEarlier (k : String) :
    ∀ rows : List Row, lastRow k (dropEarlier rows) = lastRow k rows := by
  intro rows
  induction rows with
  | nil => rfl
  | cons r rs ih =>
    by_cases hany : rs.any (fun r' => r'.org_id == r.org_id) = true
    · simp only [dropEarlier, hany, if_true, ih, lastRow]
      cases h : lastRow k rs with
      | some r' => rfl
      | none =>
        have hall := lastRow_eq_none.1 h
        obtain ⟨r', hr', heq⟩ := List.any_eq_true.1 hany
        have heq' : r'.org_id = r.org_id := by simpa using heq
        have hne : ¬ r.org_id = k := fun hh => hall r' hr' (heq'.trans hh)
        simp [hne]
    · have hany' : rs.any (fun r' => r'.org_id == r.org_id) = false := by simpa using hany
      simp only [dropEarlier, hany', Bool.false_eq_true, if_false, lastRow, ih]

theorem perm_of_lookup_eq {m₁ m₂ : OrgMap} (h₁ : IsMap m₁) (h₂ : IsMap m₂)
    (h : ∀ k, m₁.lookup k = m₂.lookup k) : m₁.Perm m₂ := by
  have n₁ : m₁.Nodup := List.Nodup.of_map Prod.fst h₁
  have n₂ : m₂.Nodup := List.Nodup.of_map Prod.fst h₂
  rw [List.perm_ext_iff_of_nodup n₁ n₂]
  rintro ⟨k, v⟩
  constructor
  · intro hm
    have := lookup_of_mem h₁ hm
    rw [h] at this
    exact mem_of_lookup this
  · intro hm
    have := lookup_of_mem h₂ hm
    rw [← h] at this
    exact mem_of_lookup this

theorem lastRow_append_last (k : String) (r : Row) (post : List Row) (hk : r.org_id = k)
    (hpost : ∀ r' ∈ post, r'.org_id ≠ k) :
    ∀ pre : List Row, lastRow k (pre ++ r :: post) = some r := by
  intro pre
  induction pre with
  | nil => simp [lastRow, lastRow_eq_none.2 hpost, hk]
  | cons p pre ih => simp [lastRow, ih]

theorem keys_perm {m₁ m₂ : OrgMap} (hp : m₁.Perm m₂) (k : String) :
    k ∈ m₁.map Prod.fst ↔ k ∈ m₂.map Prod.fst :=
  (hp.map Prod.fst).mem_iff

/-- On a map whose records are stored under their own `org_id`, another
enumeration changes neither whether the call returns, nor the fault, nor
the tree but for the order of children. -/
theorem orgHirarki_agree (m₁ m₂ : OrgMap) (hp : m₁.Perm m₂) (hm : IsMap m₁)
    (hwk : WellKeyed m₁) (fuel : Nat) (orgID : String) :
    OutcomeAgree (orgHirarki fuel m₁ orgID) (orgHirarki fuel m₂ orgID) := by
  have heq := orgHirarki_perm m₁ m₂ hp hm fuel orgID
  cases h1 : orgHirarki fuel m₁ orgID with
  | ok t₁ =>
    cases h2 : orgHirarki fuel m₂ orgID with
    | ok t₂ => rw [h1, h2] at heq; exact heq
    | error e₂ => rw [h1, h2] at heq; exact absurd heq (by simp [OutcomeEquiv])
  | error e₁ =>
    cases h2 : orgHirarki fuel m₂ orgID with
    | ok t₂ => rw [h1, h2] at heq; exact absurd heq (by simp [OutcomeEquiv])
    | error e₂ =>
      show e₁ = e₂
      by_cases hkey : orgID ∈ m₁.map Prod.fst
      · have n1 := orgHirarki_ne_nilDereference m₁ hwk fuel orgID hkey
        have n2 := orgHirarki_ne_nilDereference m₂ (wellKeyed_perm hp hwk) fuel orgID
          ((keys_perm hp orgID).1 hkey)
        cases e₁ with
        | nilDereference => exact absurd h1 n1
        | fuelExhausted =>
          cases e₂ with
          | nilDereference => exact absurd h2 n2
          | fuelExhausted => rfl
      · cases fuel with
        | zero =>
          simp only [orgHirarki] at h1 h2
          injection h1 with h1
          injection h2 with h2
          rw [← h1, ← h2]
        | succ n =>
          rw [orgHirarki_absent m₁ orgID hkey n] at h1
          rw [orgHirarki_absent m₂ orgID (fun h => hkey ((keys_perm hp orgID).2 h)) n] at h2
          injection h1 with h1
          injection h2 with h2
          rw [← h1, ← h2]

theorem wellKeyed_rowLoop (rows : List Row) : WellKeyed (rowLoop rows) :=
  (rowLoop_wellFormed rows).2.1

theorem rowLoop_perm_dropEarlier (rows : List Row) :
    (rowLoop rows).Perm (rowLoop (dropEarlier rows)) := by
  apply perm_of_lookup_eq (isMap_rowLoop _) (isMap_rowLoop _)
  intro k
  rw [lookup_rowLoop, lookup_rowLoop, lastRow_dropEarlier]

/-- The rows `repeatedRows`: the row loop stores for `A` the name and the
absent parent of the last row, and the tree for `A` is the one assembled
from the rows without the first. -/
theorem rowLoop_repeatedRows :
    rowLoop repeatedRows =
        [("A", ⟨"A", "New", noParent, []⟩), ("B", ⟨"B", "Kid", parent "A", []⟩)] ∧
      dropEarlier repeatedRows = [⟨"B", "Kid", parent "A"⟩, ⟨"A", "New", noParent⟩] ∧
      orgHirarki 3 (rowLoop repeatedRows) "A" =
        .ok ⟨"A", "New", noParent, [⟨"B", "Kid", parent "A", []⟩]⟩ ∧
      orgHirarki 3 (rowLoop (dropEarlier repeatedRows)) "A" =
        .ok ⟨"A", "New", noParent, [⟨"B", "Kid", parent "A", []⟩]⟩ := by
  decide

/-- C9: for every sequence of decoded rows, the map built by the row loop has
distinct keys and maps each `org_id` to the record made of the `org_id`,
the name and the parent link of the last row of the sequence that carries
that `org_id` (with no `OrgChilds`), and has no other key; it is the same
map (the same entries, up to the order of enumeration) as the one built
from the sequence without every earlier row of a repeated `org_id`, so
that the outcomes `orgHirarki` can have over the enumerations of the one
are exactly those it can have over the enumerations of the other, and on
the two maps as built the call returns trees equal up to the order of the
children, or ends in the same fault. -/
theorem rowLoop_last_write_wins (rows : List Row) :
    IsMap (rowLoop rows) ∧
      (∀ pre r post, rows = pre ++ r :: post → (∀ r' ∈ post, r'.org_id ≠ r.org_id) →
        (rowLoop rows).lookup r.org_id =
          some ⟨r.org_id, r.org_name, r.org_parent_id, []⟩) ∧
      (∀ k, (∀ r ∈ rows, r.org_id ≠ k) → (rowLoop rows).lookup k = none) ∧
      (∀ k, (rowLoop rows).lookup k =
        (lastRow k rows).map (fun r => ⟨r.org_id, r.org_name, r.org_parent_id, []⟩)) ∧
      (rowLoop rows).Perm (rowLoop (dropEarlier rows)) ∧
      (∀ e : OrgMap, e.Perm (rowLoop rows) ↔ e.Perm (rowLoop (dropEarlier rows))) ∧
      (∀ fuel root out,
        (∃ e : OrgMap, e.Perm (rowLoop rows) ∧ orgHirarki fuel e root = out) ↔
          (∃ e : OrgMap, e.Perm (rowLoop (dropEarlier rows)) ∧
            orgHirarki fuel e root = out)) ∧
      ∀ fuel root, OutcomeAgree (orgHirarki fuel (rowLoop rows) root)
        (orgHirarki fuel (rowLoop (dropEarlier rows)) root) := by
  have hperm := rowLoop_perm_dropEarlier rows
  have hlook : ∀ k, (rowLoop rows).lookup k =
      (lastRow k rows).map (fun r => ⟨r.org_id, r.org_name, r.org_parent_id, []⟩) := by
    intro k
    rw [lookup_rowLoop]
    cases lastRow k rows <;> rfl
  refine ⟨isMap_rowLoop rows, ?_, ?_, hlook, hperm,
    fun e => ⟨fun h => h.trans hperm, fun h => h.trans hperm.symm⟩, ?_,
    fun fuel root => orgHirarki_agree _ _ hperm (isMap_rowLoop rows) (wellKeyed_rowLoop rows)
      fuel root⟩
  · intro pre r post hrows hpost
    rw [hlook, hrows, lastRow_append_last r.org_id r post rfl hpost pre]
    rfl
  · intro k hk
    rw [hlook, lastRow_eq_none.2 hk]
    rfl
  · intro fuel root out
    constructor
    · rintro ⟨e, he, hout⟩
      exact ⟨e, he.trans hperm, hout⟩
    · rintro ⟨e, he, hout⟩
      exact ⟨e, he.trans hperm.symm, hout⟩

/-! ## C10 -/

theorem rangeLoopSt_eq (m : OrgMap) (call : OrgMap → String → Except Fault (Organization × OrgMap))
    (call₀ : String → Except Fault Organization) (orgID : String)
    (hcall : ∀ x, call m x = withState m (call₀ x)) :
    ∀ (n s : Nat) (acc : List Organization), s + n = m.length →
      rangeLoopSt call orgID (List.range' s n) m acc =
        withState m (rangeLoop call₀ orgID (m.drop s) acc) := by
  intro n
  induction n with
  | zero =>
    intro s acc hs
    have hd : m.drop s = [] := List.drop_eq_nil_of_le (by omega)
    simp [rangeLoopSt, hd, rangeLoop, withState]
  | succ n ih =>
    intro s acc hs
    have hlt : s < m.length := by omega
    have hd : m.drop s = m[s] :: m.drop (s + 1) := List.drop_eq_getElem_cons hlt
    have hget : m[s]? = some m[s] := List.getElem?_eq_getElem hlt
    rw [hd, List.range'_succ]
    generalize m[s] = kv at hget
    obtain ⟨k, o⟩ := kv
    simp only [rangeLoopSt, hget, rangeLoop]
    by_cases hc : isChildOf orgID o = true
    · simp only [hc, if_true, hcall]
      cases h0 : call₀ o.OrgID with
      | ok child =>
        simp only [withState]
        exact ih (s + 1) _ (by omega)
      | error e => simp [withState]
    · have hc' : isChildOf orgID o = false := by simpa using hc
      simp only [hc', Bool.false_eq_true, if_false]
      exact ih (s + 1) _ (by omega)

/-- The call with the map as state returns what `orgHirarki` returns, and the
map as it was. -/
theorem orgHirarkiSt_eq (m : OrgMap) :
    ∀ (fuel : Nat) (orgID : String),
      orgHirarkiSt fuel m orgID = withState m (orgHirarki fuel m orgID) := by
  intro fuel
  induction fuel with
  | zero => intro orgID; rfl
  | succ n ih =>
    intro orgID
    have hloop := rangeLoopSt_eq m (orgHirarkiSt n) (orgHirarki n m) orgID ih m.length 0 []
      (by simp)
    rw [← List.range_eq_range', List.drop_zero] at hloop
    simp only [orgHirarkiSt, orgHirarki, hloop]
    cases m.lookup orgID with
    | none => rfl
    | some org =>
      cases rangeLoop (orgHirarki n m) orgID m [] with
      | error e => rfl
      | ok cs =>
        simp only [withState]
        split_ifs <;> rfl

/-- C10: when `orgHirarki`, run with the records of the map as explicit
state, returns a node and a state, the state is the map as it was before
the call (same keys, same record under each key, `OrgChilds` included), the
node is what `orgHirarki` returns, and `GenerateJSONStructure` likewise
returns its string with the map unchanged: the children are attached to
the returned copies only. -/
theorem orgMap_unchanged (fuel : Nat) (m : OrgMap) (orgID : String) (t : Organization)
    (m' : OrgMap) (h : orgHirarkiSt fuel m orgID = .ok (t, m')) :
    m' = m ∧ orgHirarki fuel m orgID = .ok t ∧
      ∀ quote, GenerateJSONStructureSt quote fuel m orgID = .ok (t.toJson.render quote, m) := by
  rw [orgHirarkiSt_eq] at h
  cases h0 : orgHirarki fuel m orgID with
  | error e =>
    rw [h0] at h
    cases h
  | ok t' =>
    rw [h0] at h
    simp only [withState] at h
    injection h with h
    injection h with h1 h2
    subst h1
    subst h2
    refine ⟨rfl, rfl, ?_⟩
    intro quote
    simp [GenerateJSONStructureSt, orgHirarkiSt_eq, h0, withState]

/-- C10, witness: the end-to-end record set with root `A`. -/
theorem orgMap_unchanged_witness :
    orgHirarkiSt 5 exampleMap "A" = .ok (exampleTree true, exampleMap) ∧
      (exampleMap = exampleMap ∧ orgHirarki 5 exampleMap "A" = .ok (exampleTree true) ∧
        ∀ quote, GenerateJSONStructureSt quote 5 exampleMap "A" =
          .ok ((exampleTree true).toJson.render quote, exampleMap)) :=
  ⟨rfl, orgMap_unchanged 5 exampleMap "A" (exampleTree true) exampleMap rfl⟩

end OrgTree
